import Mathlib

/-!
Verification development for `extract_mda.py`: extraction of the MD&A
(Management Discussion and Analysis) section from Chinese annual-report text.

The program text is modelled shallowly: Python strings become `List Char`,
Python exceptions become `Except Unit`, and every regular expression of the
source (all of which have a fixed, simple shape) is embedded as an explicit
character-level matcher.  Keyword patterns (the `keywords_pattern` argument
and the built-in catalog, which in the source are regex alternations of
literal phrases) are modelled as lists of literal strings; title fragments
are likewise matched literally, which is faithful whenever they contain no
regex metacharacters (the defaults and all inputs considered here satisfy
this).  All definitions are structurally recursive so that they evaluate by
kernel reduction on concrete inputs.
-/

/-! ## Character classes used by the source's regexes -/

/-- The ten Chinese numeral characters of the class 一二三四五六七八九十. -/
def numeralChars : List Char :=
  ['一', '二', '三', '四', '五', '六', '七', '八', '九', '十']

def isNumChar (c : Char) : Bool := numeralChars.contains c

/-- The character class written as 节|章 inside brackets in the source:
it contains the three characters 节, `|`, 章. -/
def isJieZhang (c : Char) : Bool := c = '节' || c = '|' || c = '章'

/-- The separator class of the header pattern: comma, fullwidth comma,
colon, fullwidth colon, ideographic comma, dot, space, tab. -/
def isSepChar (c : Char) : Bool :=
  [',', '，', ':', '：', '、', '.', ' ', '\t'].contains c

/-- CJK unified ideographs range used by the source: U+4E00 to U+9FA5. -/
def isCJK (c : Char) : Bool := 0x4e00 ≤ c.toNat && c.toNat ≤ 0x9fa5

/-- ASCII decimal digit (the digits appearing in these documents). -/
def isDigitChar (c : Char) : Bool := '0' ≤ c && c ≤ '9'

/-- Python whitespace (str.isspace / regex `\s`): ASCII whitespace controls
and the common Unicode space characters. -/
def isPyWs (c : Char) : Bool :=
  let n := c.toNat
  (9 ≤ n && n ≤ 13) || n = 28 || n = 29 || n = 30 || n = 31 || n = 32 ||
  n = 0x85 || n = 0xa0 || n = 0x1680 || (0x2000 ≤ n && n ≤ 0x200a) ||
  n = 0x2028 || n = 0x2029 || n = 0x202f || n = 0x205f || n = 0x3000

/-! ## Generic string (List Char) operations with Python semantics -/

/-- Tail-recursive list length (kernel reduction of the standard `length`
nests; this one iterates). -/
def listLen (l : List α) : Nat := l.foldl (fun n _ => n + 1) 0

/-- Reversed-prefix accumulator for a tail-recursive `take`. -/
def takeRevAux : Nat → List α → List α → List α
  | 0, _, acc => acc
  | _ + 1, [], acc => acc
  | n + 1, c :: t, acc => takeRevAux n t (c :: acc)

/-- Tail-recursive `List.take`. -/
def listTake (n : Nat) (l : List α) : List α := (takeRevAux n l []).reverse

/-- Index of the first occurrence of `sep` in `s` (`sep` matched literally),
`none` when `sep` never occurs: reference recursion. -/
def firstOccSimple (sep : List Char) : List Char → Option Nat
  | [] => if sep.isEmpty then some 0 else none
  | c :: rest =>
    if sep.isPrefixOf (c :: rest) then some 0
    else (firstOccSimple sep rest).map (· + 1)

/-- Tail-recursive scanner equivalent to `firstOccSimple` (offset
accumulator `i`). -/
def firstOccAux (sep : List Char) (i : Nat) : List Char → Option Nat
  | [] => if sep.isEmpty then some i else none
  | c :: rest =>
    if sep.isPrefixOf (c :: rest) then some i else firstOccAux sep (i + 1) rest

/-- Index of the first occurrence of `sep` in `s` (`sep` matched literally),
`none` when `sep` never occurs.  For empty `sep` this is `some 0`, like a
Python regex empty match. -/
def firstOccIdx (sep s : List Char) : Option Nat := firstOccAux sep 0 s

/-- Index of the last occurrence of `sep` in `s`, `none` when absent. -/
def lastOccIdx (sep : List Char) : List Char → Option Nat
  | [] => if sep.isEmpty then some 0 else none
  | c :: rest =>
    match lastOccIdx sep rest with
    | some j => some (j + 1)
    | none => if sep.isPrefixOf (c :: rest) then some 0 else none

/-- Python `s.split(sep)[0]`: the prefix of `s` before the first occurrence
of `sep`, or all of `s` when `sep` does not occur. -/
def pySplitFirst (sep s : List Char) : List Char :=
  match firstOccIdx sep s with
  | none => s
  | some i => s.take i

/-- Auxiliary scanner for `pySplitLast`: `cur` is the reversed current
fragment, the `Nat` counts separator characters still to be skipped. -/
def pySplitLastAux (sep : List Char) (cur : List Char) : Nat → List Char → List Char
  | _, [] => cur.reverse
  | 0, c :: rest =>
    if sep.isPrefixOf (c :: rest) then pySplitLastAux sep [] (sep.length - 1) rest
    else pySplitLastAux sep (c :: cur) 0 rest
  | k + 1, _ :: rest => pySplitLastAux sep cur k rest

/-- Python `s.split(sep)[-1]`: the final fragment of the left-to-right
non-overlapping split of `s` at `sep` (all of `s` when `sep` is absent).
Python raises on an empty separator; no reachable call site passes one,
and we return `s` in that case to stay total. -/
def pySplitLast (sep s : List Char) : List Char :=
  if sep.isEmpty then s else pySplitLastAux sep [] 0 s

/-- The suffix of `s` following the last occurrence of `sep` (specification
form used by the claims; all of `s` when `sep` is absent). -/
def suffixAfterLastOcc (sep s : List Char) : List Char :=
  match lastOccIdx sep s with
  | none => s
  | some j => s.drop (j + sep.length)

/-- Normalization of one Python slice bound against length `n`:
negative indices wrap, and bounds clamp to `[0, n]`. -/
def pyIdx (n a : Int) : Int :=
  if a < 0 then max 0 (n + a) else min a n

/-- Python slicing `s[a:b]` with negative-index wrapping and clamping. -/
def pySlice (s : List Char) (a b : Int) : List Char :=
  if pyIdx (listLen s) a < pyIdx (listLen s) b then
    listTake (pyIdx (listLen s) b - pyIdx (listLen s) a).toNat
      (s.drop (pyIdx (listLen s) a).toNat)
  else []

/-- Python `str.strip()`. -/
def pyStrip (s : List Char) : List Char :=
  ((s.dropWhile isPyWs).reverse.dropWhile isPyWs).reverse

/-- Python `str.rstrip()`. -/
def pyRstrip (s : List Char) : List Char :=
  (s.reverse.dropWhile isPyWs).reverse

/-- `str.replace('\n', '')`. -/
def stripNl (s : List Char) : List Char := s.filter (fun c => c ≠ '\n')

/-- List indexing that fails like Python indexing out of range. -/
def listGetE (l : List α) (i : Nat) : Except Unit α :=
  match l.get? i with
  | some a => Except.ok a
  | none => Except.error ()

/-! ## Leaf components of the source -/

/-- `_get_toc_range`: matcher for the regex `\n目\s*录` anchored at the head
of `s`.  Greedy `\s*` followed by 录 is equivalent to skipping the maximal
whitespace run and requiring 录 next, because 录 is not whitespace. -/
def tocMarkerAt (s : List Char) : Bool :=
  match s with
  | c1 :: c2 :: t =>
    c1 == '\n' && c2 == '目' &&
      (match t.dropWhile isPyWs with
       | c3 :: _ => c3 == '录'
       | _ => false)
  | _ => false

/-- Start offset of the first TOC marker occurrence in `s`. -/
def firstTocMarkerIdx : List Char → Option Nat
  | [] => none
  | c :: rest =>
    if tocMarkerAt (c :: rest) then some 0
    else (firstTocMarkerIdx rest).map (· + 1)

/-- `_get_toc_range`: `(k, k + 2000)` at the first occurrence of the TOC
marker, `(0, 2500)` when the marker is absent. -/
def getTocRange (text : List Char) : Nat × Nat :=
  match firstTocMarkerIdx text with
  | some k => (k, k + 2000)
  | none => (0, 2500)

/-- The built-in keyword catalog of `_get_mda_keywords_pattern`: the regex
alternation is modelled as the list of its literal branches, in order. -/
def defaultKeywords : List (List Char) :=
  ["董事会报告".data, "董事会报告与管理讨论".data, "企业运营与管理评述".data,
   "经营总结与分析".data, "管理层评估与未来展望".data, "董事局报告".data,
   "管理层讨论与分析".data, "经营情况讨论与分析".data, "经营业绩分析".data,
   "业务回顾与展望".data, "公司经营分析".data, "管理层评论与分析".data,
   "执行摘要与业务回顾".data, "业务运营分析".data]

/-- `_get_mda_keywords_pattern`: a falsy (empty) caller pattern selects the
built-in catalog, any other pattern is returned verbatim. -/
def getMdaKeywordsPattern (kw : List (List Char)) : List (List Char) :=
  if kw.isEmpty then defaultKeywords else kw

/-- `char_to_int_map` of `_get_chinese_number_maps`. -/
def charToIntMap (c : Char) : Option Nat :=
  if c = '一' then some 1 else if c = '二' then some 2
  else if c = '三' then some 3 else if c = '四' then some 4
  else if c = '五' then some 5 else if c = '六' then some 6
  else if c = '七' then some 7 else if c = '八' then some 8
  else if c = '九' then some 9 else if c = '十' then some 10
  else none

/-- `int_to_char_map` of `_get_chinese_number_maps`. -/
def intToCharMap (n : Nat) : Option (List Char) :=
  if n = 1 then some ['一'] else if n = 2 then some ['二']
  else if n = 3 then some ['三'] else if n = 4 then some ['四']
  else if n = 5 then some ['五'] else if n = 6 then some ['六']
  else if n = 7 then some ['七'] else if n = 8 then some ['八']
  else if n = 9 then some ['九'] else if n = 10 then some ['十']
  else if n = 11 then some "十一".data else if n = 12 then some "十二".data
  else none

/-- Python dict lookup `char_to_int_map[run]` where the key is the whole
numeral run string: only single-character runs are keys of the map. -/
def charToIntOfRun (run : List Char) : Option Nat :=
  match run with
  | [c] => charToIntMap c
  | _ => none

/-! ## TOC parsing (`_extract_mda_via_toc`, lines 112-136) -/

/-- Matcher for the section-marker regex `\n第[一二三四五六七八九十][节|章]`
anchored at the head of `s`: a fixed four-character shape. -/
def sectionMarkerAt (s : List Char) : Option (List Char) :=
  match s with
  | '\n' :: '第' :: c :: d :: _ =>
    if isNumChar c && isJieZhang d then some ['\n', '第', c, d] else none
  | _ => none

/-- Start offset of the first section-marker match in `s`. -/
def firstMarkerIdx : List Char → Option Nat
  | [] => none
  | c :: rest =>
    if (sectionMarkerAt (c :: rest)).isSome then some 0
    else (firstMarkerIdx rest).map (· + 1)

/-- `re.findall` of the section-marker pattern: all non-overlapping matches
left to right.  The `Nat` argument counts remaining characters of a match
being skipped. -/
def findAllMarkersAux : Nat → List Char → List (List Char)
  | _, [] => []
  | 0, c :: rest =>
    match sectionMarkerAt (c :: rest) with
    | some m => m :: findAllMarkersAux 3 rest
    | none => findAllMarkersAux 0 rest
  | k + 1, _ :: rest => findAllMarkersAux k rest

def findAllSectionMarkers (s : List Char) : List (List Char) :=
  findAllMarkersAux 0 s

/-- Fragment collector for `re.split` on the section-marker pattern.
`cur` is the reversed fragment being built; the `Nat` skips the remaining
characters of a marker match.  Starts right after a marker match. -/
def collectFragsAux (cur : List Char) : Nat → List Char → List (List Char)
  | _, [] => [cur.reverse]
  | 0, c :: rest =>
    if (sectionMarkerAt (c :: rest)).isSome
    then cur.reverse :: collectFragsAux [] 3 rest
    else collectFragsAux (c :: cur) 0 rest
  | k + 1, _ :: rest => collectFragsAux cur k rest

/-- `re.split(marker, toc)[1:]`: the fragments following each marker match
(the preamble before the first match is discarded; the empty list when the
marker never matches). -/
def tocSectionTitlesRaw (toc : List Char) : List (List Char) :=
  match firstMarkerIdx toc with
  | none => []
  | some i => collectFragsAux [] 0 (toc.drop (i + 4))

/-- Title cleaning `re.sub(r'\d+|\.', '', title).strip()`: removing every
maximal digit run and every dot is the same as removing each digit and each
dot character. -/
def cleanTitle (s : List Char) : List Char :=
  pyStrip (s.filter (fun c => !(isDigitChar c || c = '.')))

/-- Mask cleaning `re.sub(r'\d+|\. ⋯', '', s)`: removes digit runs and the
three-character literal dot, space, U+22EF.  The two alternatives never
compete at a position since a dot is not a digit. -/
def removeDigitsDotEllipsis : List Char → List Char
  | [] => []
  | '.' :: ' ' :: '⋯' :: r => removeDigitsDotEllipsis r
  | c :: rest =>
    if isDigitChar c then removeDigitsDotEllipsis rest
    else c :: removeDigitsDotEllipsis rest

/-- `pandas str.contains`: the keyword alternation matches somewhere inside
the title, i.e. some literal branch occurs as a substring. -/
def titleContainsKw (lits : List (List Char)) (title : List Char) : Bool :=
  lits.any (fun l => (firstOccIdx l title).isSome)

/-- The cleaned TOC titles of `text` (lines 112-117 of the source). -/
def tocTitles (text : List Char) : List (List Char) :=
  let r := getTocRange text
  (tocSectionTitlesRaw (pySlice text (r.1 : Int) (r.2 : Int))).map cleanTitle

/-- The TOC section markers of `text` (line 120 of the source). -/
def tocMarkers (text : List Char) : List (List Char) :=
  let r := getTocRange text
  findAllSectionMarkers (pySlice text (r.1 : Int) (r.2 : Int))

/-- Lines 128-136: locate the MD&A entry among the TOC titles and rebuild
the literal MD&A header mask and the next section's header mask.  Each
failing lookup is the corresopnding Python `IndexError`. -/
def tocMasks (kw : List (List Char)) (text : List Char) :
    Except Unit (List Char × List Char) :=
  let lits := getMdaKeywordsPattern kw
  let titles := tocTitles text
  let markers := tocMarkers text
  match titles.findIdx? (fun t => titleContainsKw lits t) with
  | none => Except.error ()
  | some i =>
    match markers.get? i with
    | none => Except.error ()
    | some m0 =>
      match titles.get? i with
      | none => Except.error ()
      | some t0 =>
        match markers.get? (i + 1) with
        | none => Except.error ()
        | some m1 =>
          match titles.get? (i + 1) with
          | none => Except.error ()
          | some t1 =>
            Except.ok (pyRstrip (removeDigitsDotEllipsis (stripNl m0 ++ t0)),
              pyRstrip (removeDigitsDotEllipsis (stripNl m1 ++ t1)))

/-! ## The two-fragment proximity sub-strategy (lines 138-160) -/

/-- `re.split(r'\s', s)`: split at every single whitespace character. -/
def splitOnWsAux (cur : List Char) : List Char → List (List Char)
  | [] => [cur.reverse]
  | c :: rest =>
    if isPyWs c then cur.reverse :: splitOnWsAux [] rest
    else splitOnWsAux (c :: cur) rest

def splitOnWs (s : List Char) : List (List Char) := splitOnWsAux [] s

/-- `re.finditer` of a literal pattern: the start offsets of all
non-overlapping occurrences, left to right.  First `Nat`: characters of a
match still being skipped; second: absolute offset of the list head. -/
def occIdxsAux (pat : List Char) : Nat → Nat → List Char → List Nat
  | _, _, [] => []
  | 0, i, c :: rest =>
    if pat.isPrefixOf (c :: rest)
    then i :: occIdxsAux pat (pat.length - 1) (i + 1) rest
    else occIdxsAux pat 0 (i + 1) rest
  | k + 1, i, _ :: rest => occIdxsAux pat k (i + 1) rest

def occIdxs (pat s : List Char) : List Nat := occIdxsAux pat 0 0 s

/-- Lines 141-160: split each mask at its single internal whitespace
character, confirm an occurrence of the second fragment by finding the
first fragment within the 50-character window on either side, and require
the end offset to exceed the start offset.  Any shape mismatch or missed
lookup is the Python exception caught at line 162. -/
def tocTryPrimary (mask nmask body : List Char) : Except Unit (List Char) :=
  match splitOnWs mask with
  | [p1, p2] =>
    match (occIdxs p2 body).find?
        (fun p => (firstOccIdx p1 (pySlice body ((p : Int) - 50) ((p : Int) + 50))).isSome) with
    | none => Except.error ()
    | some st =>
      match splitOnWs nmask with
      | [q1, q2] =>
        match (occIdxs q2 body).find?
            (fun p => (firstOccIdx q1 (pySlice body ((p : Int) - 50) ((p : Int) + 50))).isSome
              && st < p) with
        | none => Except.error ()
        | some en => Except.ok (pySlice body (st : Int) (en : Int))
      | _ => Except.error ()
  | _ => Except.error ()

/-- Lines 165-166, the naive fallback: everything after the first literal
occurrence of the mask, prefixed by the mask, truncated before the first
occurrence of the next mask. -/
def tocNaiveFallback (mask nmask body : List Char) : List Char :=
  pySplitFirst nmask (mask ++ pySplitLast mask body)

/-! ## The numeral-proximity core (lines 170-197 and 216-245)

The body of the `else` branch of `_extract_mda_via_toc` and the body of
`_extract_mda_via_keyword_search` are character-for-character identical up
to the final `return`, so they are embedded once. -/

/-- Python-regex alternation match at the head of `s`: the first literal
branch (in pattern order) that is a prefix wins. -/
def kwMatchAt (lits : List (List Char)) (s : List Char) : Option (List Char) :=
  lits.find? (fun l => l.isPrefixOf s)

/-- Start offsets of non-overlapping `re.finditer` matches of the keyword
alternation. -/
def kwStartsAux (lits : List (List Char)) : Nat → Nat → List Char → List Nat
  | _, _, [] => []
  | 0, i, c :: rest =>
    match kwMatchAt lits (c :: rest) with
    | some m =>
      if m.length ≤ 1 then i :: kwStartsAux lits 0 (i + 1) rest
      else i :: kwStartsAux lits (m.length - 2 + 1) (i + 1) rest
    | none => kwStartsAux lits 0 (i + 1) rest
  | k + 1, i, _ :: rest => kwStartsAux lits k (i + 1) rest

def kwStarts (lits : List (List Char)) (text : List Char) : List Nat :=
  kwStartsAux lits 0 0 text

/-- `re.findall('[一二三四五六七八九十]+', s)`: all maximal numeral runs.
`cur` is the reversed run being accumulated. -/
def numRunsAux (cur : List Char) : List Char → List (List Char)
  | [] => if cur.isEmpty then [] else [cur.reverse]
  | c :: rest =>
    if isNumChar c then numRunsAux (c :: cur) rest
    else if cur.isEmpty then numRunsAux [] rest
    else cur.reverse :: numRunsAux [] rest

def numRunsIn (s : List Char) : List (List Char) := numRunsAux [] s

/-- Lines 173-178 / 219-223: for every keyword occurrence, the numeral runs
inside the 20-character window around its start, all collected in order. -/
def numbersFound (lits : List (List Char)) (text : List Char) : List (List Char) :=
  (kwStarts lits text).flatMap
    (fun st => numRunsIn (pySlice text ((st : Int) - 10) ((st : Int) + 10)))

/-- `Counter(l).most_common(1)[0][0]`: the most frequent element; ties are
broken by first insertion, which the strict comparison preserves. -/
def mostCommon (l : List (List Char)) : Option (List Char) :=
  match l with
  | [] => none
  | x :: _ => some (l.foldl (fun best y => if l.count y > l.count best then y else best) x)

/-! ## The header-detection pattern (lines 186-187 / 231-233)

The source concatenates `\n[第]*[一二三四五六七八九十]{1,}[节|章]*[,，:：、. \t]{1,5}`
with the keyword alternation string.  Regex alternation has the lowest
precedence, so the newline-numeral-separator prefix binds only to the
FIRST keyword branch; every other branch matches bare, anywhere in the
text.  Within the prefixed branch the classes 第, numeral, 节|章,
separator are pairwise disjoint, so the greedy stars admit no useful
backtracking and each class consumes its maximal run; only the bounded
separator repetition can backtrack (the first keyword literal could begin
with a separator character), so candidate separator counts are tried from
the largest down. -/
def matchHeaderPrefixedAt (lits : List (List Char)) (s : List Char) : Option (List Char) :=
  match s with
  | '\n' :: s1 =>
    let ds := s1.takeWhile (fun c => c = '第')
    let s2 := s1.drop ds.length
    let nums := s2.takeWhile isNumChar
    if nums.isEmpty then none
    else
      let s3 := s2.drop nums.length
      let jz := s3.takeWhile isJieZhang
      let s4 := s3.drop jz.length
      let m := min 5 (s4.takeWhile isSepChar).length
      ((List.range m).map (fun j => m - j)).findSome? (fun k =>
        match lits.head? with
        | some l0 =>
          if l0.isPrefixOf (s4.drop k)
          then some ('\n' :: (ds ++ nums ++ jz ++ s4.take k ++ l0))
          else none
        | none => none)
  | _ => none

/-- One alternation step of the full header pattern: the prefixed first
branch is tried first (alternatives are attempted in pattern order at each
position), then the remaining keyword branches match bare. -/
def matchHeaderAt (lits : List (List Char)) (s : List Char) : Option (List Char) :=
  match matchHeaderPrefixedAt lits s with
  | some m => some m
  | none => (lits.drop 1).find? (fun l => l.isPrefixOf s)

/-- `re.findall` of the header pattern: non-overlapping matches, left to
right.  The `Nat` skips the remaining characters of a match. -/
def findAllHeadersAux (lits : List (List Char)) : Nat → List Char → List (List Char)
  | _, [] => []
  | 0, c :: rest =>
    match matchHeaderAt lits (c :: rest) with
    | some mh => mh :: findAllHeadersAux lits (mh.length - 1) rest
    | none => findAllHeadersAux lits 0 rest
  | k + 1, _ :: rest => findAllHeadersAux lits k rest

def findAllHeaders (lits : List (List Char)) (text : List Char) : List (List Char) :=
  findAllHeadersAux lits 0 text

/-- Lines 180-197 / 225-245 without the final `return` difference: `none`
when no numeral runs were collected (the branch returning the empty
string); otherwise the pair of the newline-stripped last header match and
the content slice that follows it, or an error for any failing lookup. -/
def numeralCore (lits : List (List Char)) (text : List Char) :
    Except Unit (Option (List Char × List Char)) :=
  match mostCommon (numbersFound lits text) with
  | none => Except.ok none
  | some run =>
    match ((findAllHeaders lits text).map stripNl).getLast? with
    | none => Except.error ()
    | some hdr =>
      match charToIntOfRun run with
      | none => Except.error ()
      | some cur =>
        match intToCharMap (cur + 1) with
        | none => Except.error ()
        | some nxt =>
          Except.ok (some (hdr,
            pySplitFirst ('\n' :: (nxt ++ hdr.filter (fun c => !isCJK c)))
              (pySplitLast hdr text)))

/-! ## The three top-level functions -/

/-- `_extract_mda_via_toc` (lines 94-199).  The masks' computation happens
before the inner `try`, so its failures propagate; failures of the
two-fragment sub-strategy are caught and answered by the naive fallback;
with no usable TOC entries the numeral core runs on the whole document and
its content is returned without the header (line 196), or the empty string
when no numeral runs were found (line 199). -/
def tocExtractE (kw : List (List Char)) (text : List Char) :
    Except Unit (List Char) :=
  let lits := getMdaKeywordsPattern kw
  if !(tocTitles text).isEmpty && !(tocMarkers text).isEmpty then
    match tocMasks kw text with
    | Except.error e => Except.error e
    | Except.ok (mask, nmask) =>
      let body := text.drop (getTocRange text).2
      match tocTryPrimary mask nmask body with
      | Except.ok r => Except.ok r
      | Except.error _ => Except.ok (tocNaiveFallback mask nmask body)
  else
    match numeralCore lits text with
    | Except.error e => Except.error e
    | Except.ok none => Except.ok []
    | Except.ok (some (_, content)) => Except.ok content

/-- `_extract_mda_via_keyword_search` (lines 201-247): the numeral core on
the whole document, with the header prepended to the content (line 244),
or the empty string when no numeral runs were found (line 247). -/
def kwSearchE (kw : List (List Char)) (text : List Char) :
    Except Unit (List Char) :=
  let lits := getMdaKeywordsPattern kw
  match numeralCore lits text with
  | Except.error e => Except.error e
  | Except.ok none => Except.ok []
  | Except.ok (some (hdr, content)) => Except.ok (hdr ++ content)

/-- `extract_mda` (lines 68-92): try the TOC strategy, on failure try the
keyword search, on failure return the empty string. -/
def extractMda (kw : List (List Char)) (text : List Char) : List Char :=
  match tocExtractE kw text with
  | Except.ok s => s
  | Except.error _ =>
    match kwSearchE kw text with
    | Except.ok s => s
    | Except.error _ => []

/-! ## Specification-side definitions used by the claims -/

deriving instance DecidableEq for Except

/-- `w` has a nonempty proper border: some proper nonempty suffix of `w`
equals a prefix of `w`.  A border-free separator has no two overlapping
occurrences, which makes the final fragment of a Python split coincide
with the suffix after the last occurrence. -/
def hasBorder (w : List Char) : Bool :=
  (List.range w.length).any
    (fun k => 0 < k && w.drop k == w.take (w.length - k))

/-- The TOC marker regex matches at offset `i` of `text`: a newline, 目,
optionally interleaved whitespace, 录 (specification form). -/
def tocMarkerSpecAt (text : List Char) (i : Nat) : Prop :=
  ∃ ws rest, text.drop i = '\n' :: '目' :: (ws ++ '录' :: rest) ∧
    ∀ c ∈ ws, isPyWs c = true

/-- Strip one leading newline when present (the specification's reading of
the newline removal applied to a header match). -/
def stripLeadingNl (m : List Char) : List Char :=
  match m with
  | c :: t => if c = '\n' then t else c :: t
  | [] => []

/-- The keyword-search result as the specification describes it: the last
match of the header-detection pattern with its leading newline stripped,
concatenated with the text after that header's last occurrence, truncated
before the first occurrence of the constructed next-section header. -/
def kwSearchSpec (lits : List (List Char)) (text : List Char) : Option (List Char) :=
  match mostCommon (numbersFound lits text) with
  | none => none
  | some run =>
    match (findAllHeaders lits text).getLast? with
    | none => none
    | some m =>
      let hdr := stripLeadingNl m
      let sep := hdr.filter (fun c => !isCJK c)
      match charToIntOfRun run with
      | none => none
      | some cur =>
        match intToCharMap (cur + 1) with
        | none => none
        | some nxt =>
          some (hdr ++ pySplitFirst ('\n' :: (nxt ++ sep)) (suffixAfterLastOcc hdr text))

/-! ## Concrete documents used as witnesses and counterexamples -/

/-- A document on which both strategies raise: the TOC parses but no title
contains a keyword, and the only keyword occurrence is 董事会报告 — the one
branch of the header pattern that carries the newline-numeral-separator
prefix — without that prefix, so the header findall is empty. -/
def docBothFail : List Char :=
  "甲甲甲甲甲甲甲甲甲甲三董事会报告\n第一节 简介".data

/-- A document with no parsable TOC, one true keyword header, and a next
section, exercising the numeral-proximity core of both strategies. -/
def docKwHeader : List Char :=
  "甲甲甲甲甲甲甲甲甲甲三管理层讨论与分析\n三、管理层讨论与分析\n正文内容\n四、结语".data

/-- A document whose TOC lists the MD&A section last, with no entry after
it. -/
def docMdaLast : List Char :=
  "\n目录\n第一节 公司简介\n第二节 管理层讨论与分析".data

/-- A short document with a TOC but no body after the TOC range: the naive
fallback returns the whitespace-collapsed mask, which occurs nowhere in the
document. -/
def docMaskOnly : List Char :=
  "\n目录\n第三节 管理层讨论与分析\n第四节 公司治理".data

/-- Head of the synthetic well-formed-TOC document of the specification:
a two-character preamble, the TOC marker, and the four TOC entries
(48 characters, so the TOC range [2, 2002) ends exactly at the end of the
first padding block below). -/
def synthHead : List Char :=
  "引言\n目录\n第一节 公司简介\n第二节 会计数据摘要\n第三节 管理层讨论与分析\n第四节 公司治理\n".data

/-- Body of the synthetic document: the two body headers, titled exactly
like the TOC entries, with content between them (33 characters). -/
def synthBody : List Char :=
  "\n第三节 管理层讨论与分析\n这是讨论内容。\n第四节 公司治理\n结束".data

/-- The synthetic document of claim C2: head, 1954 filler characters
completing the TOC range, 60 more filler characters opening the body, then
the body with its two section headers. -/
def synthDoc : List Char :=
  synthHead ++ (List.replicate 1954 '甲' ++ (List.replicate 60 '甲' ++ synthBody))

/-- What the TOC extractor actually returns on `synthDoc`: the collapsed
MD&A mask followed by the whole body after the TOC range. -/
def synthActual : List Char :=
  "第三节管理层讨论与分析".data ++ (List.replicate 60 '甲' ++ synthBody)

/-- The body text lying strictly between the two body headers of
`synthDoc` (what claim C2 says the extractor returns). -/
def synthBetween : List Char := "\n这是讨论内容。".data

/-! ## Bridge lemmas for the tail-recursive evaluators -/

theorem foldl_len (l : List α) : ∀ a : Nat, l.foldl (fun n _ => n + 1) a = a + l.length := by
  induction l with
  | nil => intro a; simp
  | cons c t ih => intro a; simp [List.foldl_cons, ih]; omega

theorem listLen_eq (l : List α) : listLen l = l.length := by
  simp [listLen, foldl_len]

theorem takeRevAux_eq (n : Nat) (l acc : List α) :
    takeRevAux n l acc = (l.take n).reverse ++ acc := by
  induction n generalizing l acc with
  | zero => simp [takeRevAux]
  | succ m ih =>
    cases l with
    | nil => simp [takeRevAux]
    | cons c t => simp [takeRevAux, ih, List.take_succ_cons]

theorem listTake_eq (n : Nat) (l : List α) : listTake n l = l.take n := by
  simp [listTake, takeRevAux_eq]

theorem firstOccAux_eq (sep : List Char) (s : List Char) :
    ∀ i, firstOccAux sep i s = (firstOccSimple sep s).map (· + i) := by
  induction s with
  | nil => intro i; by_cases h : sep.isEmpty <;> simp [firstOccAux, firstOccSimple, h]
  | cons c t ih =>
    intro i
    by_cases h : sep.isPrefixOf (c :: t)
    · simp [firstOccAux, firstOccSimple, h]
    · simp [firstOccAux, firstOccSimple, h, ih (i + 1)]
      cases firstOccSimple sep t <;> simp
      omega

theorem firstOccIdx_eq (sep s : List Char) : firstOccIdx sep s = firstOccSimple sep s := by
  simp [firstOccIdx, firstOccAux_eq]

/-! ## Characterizations of occurrence indices -/

theorem firstOccSimple_some (sep s : List Char) (k : Nat)
    (h : firstOccSimple sep s = some k) : sep <+: s.drop k := by
  induction s generalizing k with
  | nil =>
    by_cases he : sep.isEmpty <;> simp [firstOccSimple, he] at h
    · subst h; simp [List.isEmpty_iff.mp he]
  | cons c t ih =>
    by_cases hp : sep.isPrefixOf (c :: t)
    · simp [firstOccSimple, hp] at h
      subst h
      simpa using (List.isPrefixOf_iff_prefix.mp hp)
    · simp [firstOccSimple, hp] at h
      obtain ⟨j, hj, rfl⟩ := h
      simpa using ih j hj

theorem firstOccSimple_min (sep s : List Char) (k : Nat)
    (h : firstOccSimple sep s = some k) : ∀ j, j < k → ¬ sep <+: s.drop j := by
  induction s generalizing k with
  | nil =>
    by_cases he : sep.isEmpty <;> simp [firstOccSimple, he] at h
    · subst h; omega
  | cons c t ih =>
    by_cases hp : sep.isPrefixOf (c :: t)
    · simp [firstOccSimple, hp] at h; omega
    · simp [firstOccSimple, hp] at h
      obtain ⟨j', hj', rfl⟩ := h
      intro j hj
      cases j with
      | zero =>
        simpa using fun hc => hp (List.isPrefixOf_iff_prefix.mpr hc)
      | succ j0 =>
        have := ih j' hj' j0 (by omega)
        simpa using this

theorem firstOccSimple_none (sep s : List Char)
    (h : firstOccSimple sep s = none) : ∀ j, ¬ sep <+: s.drop j := by
  induction s with
  | nil =>
    intro j hc
    have hsne : sep ≠ [] := by
      intro hceq
      simp [firstOccSimple, hceq] at h
    exact hsne (List.prefix_nil.mp (by simpa using hc))
  | cons c t ih =>
    by_cases hp : sep.isPrefixOf (c :: t)
    · simp [firstOccSimple, hp] at h
    · simp [firstOccSimple, hp] at h
      intro j
      cases j with
      | zero =>
        simpa using fun hc => hp (List.isPrefixOf_iff_prefix.mpr hc)
      | succ j0 => simpa using ih h j0

theorem firstOccSimple_isSome (sep s : List Char) (j : Nat)
    (h : sep <+: s.drop j) : firstOccSimple sep s ≠ none := by
  intro hn
  exact firstOccSimple_none sep s hn j h

theorem lastOccIdx_some (sep s : List Char) (k : Nat)
    (h : lastOccIdx sep s = some k) : sep <+: s.drop k := by
  induction s generalizing k with
  | nil =>
    by_cases he : sep.isEmpty <;> simp [lastOccIdx, he] at h
    · subst h; simp [List.isEmpty_iff.mp he]
  | cons c t ih =>
    rw [lastOccIdx] at h
    cases hr : lastOccIdx sep t with
    | some j =>
      rw [hr] at h
      simp at h
      subst h
      simpa using ih j hr
    | none =>
      rw [hr] at h
      by_cases hp : sep.isPrefixOf (c :: t) <;> simp [hp] at h
      subst h
      simpa using (List.isPrefixOf_iff_prefix.mp hp)

theorem lastOccIdx_none (sep s : List Char)
    (h : lastOccIdx sep s = none) : ∀ j, ¬ sep <+: s.drop j := by
  induction s with
  | nil =>
    intro j hc
    have hsne : sep ≠ [] := by
      intro hceq
      simp [lastOccIdx, hceq] at h
    exact hsne (List.prefix_nil.mp (by simpa using hc))
  | cons c t ih =>
    rw [lastOccIdx] at h
    cases hr : lastOccIdx sep t with
    | some j => rw [hr] at h; cases h
    | none =>
      rw [hr] at h
      by_cases hp : sep.isPrefixOf (c :: t) <;> simp [hp] at h
      intro j
      cases j with
      | zero =>
        simpa using fun hc => hp (List.isPrefixOf_iff_prefix.mpr hc)
      | succ j0 => simpa using ih hr j0

theorem lastOccIdx_max (sep s : List Char) (k : Nat) (hne : sep ≠ [])
    (h : lastOccIdx sep s = some k) : ∀ j, k < j → ¬ sep <+: s.drop j := by
  induction s generalizing k with
  | nil =>
    by_cases he : sep.isEmpty <;> simp [lastOccIdx, he] at h
    exact absurd (List.isEmpty_iff.mp he) hne
  | cons c t ih =>
    rw [lastOccIdx] at h
    cases hr : lastOccIdx sep t with
    | some j =>
      rw [hr] at h
      simp at h
      subst h
      intro j' hj'
      cases j' with
      | zero => omega
      | succ j0 =>
        have := ih j hr j0 (by omega)
        simpa using this
    | none =>
      rw [hr] at h
      by_cases hp : sep.isPrefixOf (c :: t) <;> simp [hp] at h
      subst h
      intro j' hj'
      cases j' with
      | zero => omega
      | succ j0 =>
        simpa using lastOccIdx_none sep t hr j0

/-! ## The Python split scanner versus occurrence indices -/

theorem pySplitLastAux_skip (sep : List Char) :
    ∀ (k : Nat) (t cur : List Char),
      pySplitLastAux sep cur k t = pySplitLastAux sep cur 0 (t.drop k) := by
  intro k
  induction k with
  | zero => intro t cur; simp
  | succ m ih =>
    intro t cur
    cases t with
    | nil => simp [pySplitLastAux]
    | cons c rest => simpa [pySplitLastAux] using ih rest cur

theorem pySplitLastAux_noocc (sep : List Char) (s : List Char)
    (h : ∀ j, ¬ sep <+: s.drop j) :
    ∀ cur, pySplitLastAux sep cur 0 s = cur.reverse ++ s := by
  induction s with
  | nil => intro cur; simp [pySplitLastAux]
  | cons c t ih =>
    intro cur
    have hp : ¬ sep.isPrefixOf (c :: t) := by
      intro hc
      exact h 0 (by simpa using List.isPrefixOf_iff_prefix.mp hc)
    rw [pySplitLastAux, if_neg hp]
    have ih2 := ih (fun j => by simpa using h (j + 1)) (c :: cur)
    rw [ih2]
    simp

theorem pySplitLastAux_occ (sep : List Char) (hne : sep ≠ []) :
    ∀ (s : List Char) (i : Nat), firstOccSimple sep s = some i →
      ∀ cur, pySplitLastAux sep cur 0 s = pySplitLastAux sep [] 0 (s.drop (i + sep.length)) := by
  intro s
  induction s with
  | nil =>
    intro i h
    simp [firstOccSimple, List.isEmpty_iff, hne] at h
  | cons c t ih =>
    intro i h cur
    by_cases hp : sep.isPrefixOf (c :: t)
    · simp [firstOccSimple, hp] at h
      subst h
      rw [pySplitLastAux, if_pos hp, pySplitLastAux_skip]
      have hL : 1 ≤ sep.length := by
        cases sep with
        | nil => exact absurd rfl hne
        | cons a b => simp
      have : t.drop (sep.length - 1) = (c :: t).drop (0 + sep.length) := by
        have h1 : 0 + sep.length = (sep.length - 1) + 1 := by omega
        rw [h1]
        simp
      rw [this]
    · simp [firstOccSimple, hp] at h
      obtain ⟨i', hi', rfl⟩ := h
      rw [pySplitLastAux, if_neg hp]
      rw [ih i' hi' (c :: cur)]
      have : t.drop (i' + sep.length) = (c :: t).drop (i' + 1 + sep.length) := by
        have h1 : i' + 1 + sep.length = (i' + sep.length) + 1 := by omega
        rw [h1]
        simp
      rw [this]

theorem pySplitLast_rec (sep s : List Char) (hne : sep ≠ []) :
    pySplitLast sep s =
      match firstOccSimple sep s with
      | none => s
      | some i => pySplitLast sep (s.drop (i + sep.length)) := by
  have hemp : sep.isEmpty = false := by simp [List.isEmpty_iff, hne]
  cases h : firstOccSimple sep s with
  | none =>
    simp only [pySplitLast, hemp, Bool.false_eq_true, if_false]
    exact pySplitLastAux_noocc sep s (firstOccSimple_none sep s h) []
  | some i =>
    simp only [pySplitLast, hemp, Bool.false_eq_true, if_false]
    exact pySplitLastAux_occ sep hne s i h []

theorem pySplitLast_suffix_bounded (sep : List Char) :
    ∀ (n : Nat) (s : List Char), s.length ≤ n → pySplitLast sep s <:+ s := by
  intro n
  induction n with
  | zero =>
    intro s hs
    have : s = [] := by
      cases s with
      | nil => rfl
      | cons a b => simp at hs
    subst this
    by_cases hne : sep = []
    · simp [pySplitLast, hne]
    · rw [pySplitLast_rec sep [] hne]
      have : firstOccSimple sep [] = none := by
        simp [firstOccSimple, List.isEmpty_iff, hne]
      simp [this]
  | succ m ih =>
    intro s hs
    by_cases hne : sep = []
    · simp [pySplitLast, hne]
    · rw [pySplitLast_rec sep s hne]
      cases h : firstOccSimple sep s with
      | none => simp
      | some i =>
        simp only
        have hocc := firstOccSimple_some sep s i h
        have hLpos : 1 ≤ sep.length := by
          cases sep with
          | nil => exact absurd rfl hne
          | cons a b => simp
        have hdropnil : s.drop i ≠ [] := by
          intro hc
          rw [hc] at hocc
          exact hne (List.prefix_nil.mp hocc)
        have hilen : i < s.length := by
          by_contra hc
          push_neg at hc
          exact hdropnil (List.drop_eq_nil_of_le hc)
        have hlen2 : (s.drop (i + sep.length)).length ≤ m := by
          simp only [List.length_drop]
          omega
        exact (ih (s.drop (i + sep.length)) hlen2).trans (List.drop_suffix _ _)

theorem pySplitLast_suffix (sep s : List Char) : pySplitLast sep s <:+ s :=
  pySplitLast_suffix_bounded sep s.length s (Nat.le_refl _)

theorem pySplitLast_preceded_bounded (sep : List Char) (hne : sep ≠ []) :
    ∀ (n : Nat) (s : List Char), s.length ≤ n →
      ∀ i, firstOccSimple sep s = some i →
        ∃ u, s = u ++ sep ++ pySplitLast sep s := by
  intro n
  induction n with
  | zero =>
    intro s hs i h
    have : s = [] := by
      cases s with
      | nil => rfl
      | cons a b => simp at hs
    subst this
    simp [firstOccSimple, List.isEmpty_iff, hne] at h
  | succ m ih =>
    intro s hs i h
    have hocc := firstOccSimple_some sep s i h
    obtain ⟨w, hw⟩ := hocc
    have hwdrop : w = s.drop (i + sep.length) := by
      have h1 : (s.drop i).drop sep.length = w := by
        rw [← hw]
        simp
      rw [← h1, List.drop_drop]
    have hLpos : 1 ≤ sep.length := by
      cases sep with
      | nil => exact absurd rfl hne
      | cons a b => simp
    have hdropnil : s.drop i ≠ [] := by
      intro hc
      rw [hc] at hw
      cases sep with
      | nil => exact hne rfl
      | cons a b => simp at hw
    have hilen : i < s.length := by
      by_contra hc
      push_neg at hc
      exact hdropnil (List.drop_eq_nil_of_le hc)
    have hsplit : s = s.take i ++ sep ++ s.drop (i + sep.length) := by
      conv_lhs => rw [← List.take_append_drop i s]
      rw [← hw, hwdrop]
      simp
    rw [pySplitLast_rec sep s hne, h]
    simp only
    cases h2 : firstOccSimple sep (s.drop (i + sep.length)) with
    | none =>
      rw [pySplitLast_rec sep _ hne, h2]
      exact ⟨s.take i, hsplit⟩
    | some i2 =>
      have hlen2 : (s.drop (i + sep.length)).length ≤ m := by
        simp only [List.length_drop]
        omega
      obtain ⟨u', hu'⟩ := ih (s.drop (i + sep.length)) hlen2 i2 h2
      refine ⟨s.take i ++ sep ++ u', ?_⟩
      calc s = s.take i ++ sep ++ s.drop (i + sep.length) := hsplit
    _ = s.take i ++ sep ++ (u' ++ sep ++ pySplitLast sep (s.drop (i + sep.length))) := by rw [← hu']
    _ = s.take i ++ sep ++ u' ++ sep ++ pySplitLast sep (s.drop (i + sep.length)) := by simp [List.append_assoc]

theorem pySplitLast_preceded (sep s : List Char) (hne : sep ≠ [])
    (i : Nat) (h : firstOccSimple sep s = some i) :
    ∃ u, s = u ++ sep ++ pySplitLast sep s :=
  pySplitLast_preceded_bounded sep hne s.length s (Nat.le_refl _) i h

/-! ## Border-free separators: the split's last fragment is the suffix
after the last occurrence -/

theorem hasBorder_false_spec (w : List Char) (h : hasBorder w = false) :
    ∀ k, 0 < k → k < w.length → w.drop k ≠ w.take (w.length - k) := by
  intro k hk1 hk2 hc
  have : hasBorder w = true := by
    simp only [hasBorder, List.any_eq_true]
    exact ⟨k, List.mem_range.mpr hk2, by simp [hk1, hc]⟩
  rw [h] at this
  cases this

theorem occ_gap (w s : List Char) (hb : hasBorder w = false)
    (i j : Nat) (hij : i < j)
    (hi : w <+: s.drop i) (hj : w <+: s.drop j) : i + w.length ≤ j := by
  by_contra hc
  push_neg at hc
  set d := j - i with hd
  have hd1 : 0 < d := by omega
  have hd2 : d < w.length := by omega
  obtain ⟨x, hx⟩ := hi
  have hdropj : s.drop j = w.drop d ++ x := by
    have h1 : s.drop j = (s.drop i).drop d := by
      rw [List.drop_drop]
      congr 1
      omega
    rw [h1, ← hx, List.drop_append_eq_append_drop]
    have h2 : d - w.length = 0 := by omega
    rw [h2]
    simp
  have h2 : w <+: (w.drop d ++ x) := by rw [← hdropj]; exact hj
  obtain ⟨y, hy⟩ := h2
  have t1 : (w ++ y).take (w.length - d) = w.take (w.length - d) := by
    rw [List.take_append_eq_append_take]
    have h3 : w.length - d - w.length = 0 := by omega
    rw [h3]
    simp
  have t2 : (w.drop d ++ x).take (w.length - d) = w.drop d := by
    rw [List.take_append_eq_append_take]
    have e1 : (w.drop d).take (w.length - d) = w.drop d :=
      List.take_of_length_le (by simp)
    have e2 : w.length - d - (w.drop d).length = 0 := by simp
    rw [e1, e2]
    simp
  have htake : w.take (w.length - d) = w.drop d := by
    calc w.take (w.length - d) = (w ++ y).take (w.length - d) := t1.symm
      _ = (w.drop d ++ x).take (w.length - d) := by rw [hy]
      _ = w.drop d := t2
  exact hasBorder_false_spec w hb d hd1 hd2 htake.symm

theorem pySplitLast_eq_suffixAfterLast_bounded (sep : List Char) (hne : sep ≠ [])
    (hb : hasBorder sep = false) :
    ∀ (n : Nat) (s : List Char), s.length ≤ n →
      pySplitLast sep s = suffixAfterLastOcc sep s := by
  have hL : 1 ≤ sep.length := by
    cases sep with
    | nil => exact absurd rfl hne
    | cons a b => simp
  intro n
  induction n with
  | zero =>
    intro s hs
    have hsnil : s = [] := by
      cases s with
      | nil => rfl
      | cons a b => simp at hs
    subst hsnil
    have h1 : firstOccSimple sep [] = none := by
      simp [firstOccSimple, List.isEmpty_iff, hne]
    have h2 : lastOccIdx sep [] = none := by
      simp [lastOccIdx, List.isEmpty_iff, hne]
    rw [pySplitLast_rec sep [] hne, h1]
    simp [suffixAfterLastOcc, h2]
  | succ m ih =>
    intro s hs
    cases hfo : firstOccSimple sep s with
    | none =>
      have h2 : lastOccIdx sep s = none := by
        cases hlo : lastOccIdx sep s with
        | none => rfl
        | some j =>
          exact absurd (lastOccIdx_some sep s j hlo)
            (firstOccSimple_none sep s hfo j)
      rw [pySplitLast_rec sep s hne, hfo]
      simp [suffixAfterLastOcc, h2]
    | some i =>
      have hocci := firstOccSimple_some sep s i hfo
      have hdropnil : s.drop i ≠ [] := by
        intro hc
        rw [hc] at hocci
        exact hne (List.prefix_nil.mp hocci)
      have hilen : i < s.length := by
        by_contra hc
        push_neg at hc
        exact hdropnil (List.drop_eq_nil_of_le hc)
      have hrestlen : (s.drop (i + sep.length)).length ≤ m := by
        simp only [List.length_drop]
        omega
      have htrans : ∀ p, (s.drop (i + sep.length)).drop p = s.drop (i + sep.length + p) := by
        intro p
        rw [List.drop_drop]
      rw [pySplitLast_rec sep s hne, hfo]
      simp only
      cases hlo : lastOccIdx sep s with
      | none =>
        exact absurd hocci (lastOccIdx_none sep s hlo i)
      | some j =>
        have hoccj := lastOccIdx_some sep s j hlo
        have hij : i ≤ j := by
          by_contra hc
          push_neg at hc
          exact firstOccSimple_min sep s i hfo j hc hoccj
        rcases Nat.eq_or_lt_of_le hij with heq | hlt
        · subst heq
          have hrestnone : firstOccSimple sep (s.drop (i + sep.length)) = none := by
            cases hro : firstOccSimple sep (s.drop (i + sep.length)) with
            | none => rfl
            | some p =>
              have := firstOccSimple_some sep _ p hro
              rw [htrans p] at this
              exact absurd this (lastOccIdx_max sep s i hne hlo (i + sep.length + p) (by omega))
          rw [pySplitLast_rec sep _ hne, hrestnone]
          simp [suffixAfterLastOcc, hlo]
        · have hgap : i + sep.length ≤ j := occ_gap sep s hb i j hlt hocci hoccj
          have hoccrest : sep <+: (s.drop (i + sep.length)).drop (j - (i + sep.length)) := by
            rw [htrans]
            have : i + sep.length + (j - (i + sep.length)) = j := by omega
            rw [this]
            exact hoccj
          have hrest : lastOccIdx sep (s.drop (i + sep.length)) = some (j - (i + sep.length)) := by
            cases hro : lastOccIdx sep (s.drop (i + sep.length)) with
            | none =>
              exact absurd hoccrest (lastOccIdx_none sep _ hro _)
            | some j' =>
              have h1 := lastOccIdx_some sep _ j' hro
              rw [htrans j'] at h1
              have h2 : i + sep.length + j' ≤ j := by
                by_contra hc
                push_neg at hc
                exact lastOccIdx_max sep s j hne hlo _ hc h1
              have h3 : j - (i + sep.length) ≤ j' := by
                by_contra hc
                push_neg at hc
                exact lastOccIdx_max sep _ j' hne hro _ hc hoccrest
              have : j' = j - (i + sep.length) := by omega
              rw [this]
          rw [ih (s.drop (i + sep.length)) hrestlen]
          simp only [suffixAfterLastOcc, hrest, hlo]
          rw [htrans]
          congr 1
          omega

theorem pySplitLast_eq_suffixAfterLast (sep s : List Char) (hne : sep ≠ [])
    (hb : hasBorder sep = false) :
    pySplitLast sep s = suffixAfterLastOcc sep s :=
  pySplitLast_eq_suffixAfterLast_bounded sep hne hb s.length s (Nat.le_refl _)

/-! ## Properties of the header matcher and its scanner -/

theorem matchHeaderPrefixedAt_parts (lits : List (List Char)) (s m : List Char)
    (h : matchHeaderPrefixedAt lits s = some m) :
    ∃ s1 ds nums jz s4 k kwm,
      s = '\n' :: s1 ∧
      m = '\n' :: (ds ++ nums ++ jz ++ s4.take k ++ kwm) ∧
      ds = s1.takeWhile (fun c => c = '第') ∧
      nums = (s1.drop ds.length).takeWhile isNumChar ∧
      nums ≠ [] ∧
      jz = ((s1.drop ds.length).drop nums.length).takeWhile isJieZhang ∧
      s4 = (((s1.drop ds.length).drop nums.length).drop jz.length) ∧
      1 ≤ k ∧ k ≤ (s4.takeWhile isSepChar).length ∧ k ≤ 5 ∧
      kwm ∈ lits ∧ kwm.isPrefixOf (s4.drop k) = true := by
  cases s with
  | nil => simp [matchHeaderPrefixedAt] at h
  | cons c s1 =>
    by_cases hc : c = '\n'
    · subst hc
      rw [matchHeaderPrefixedAt] at h
      by_cases hnums : ((s1.drop (s1.takeWhile (fun c => c = '第')).length).takeWhile isNumChar).isEmpty
      · rw [if_pos hnums] at h
        cases h
      · rw [if_neg hnums] at h
        obtain ⟨k, hkmem, hk⟩ := List.exists_of_findSome?_eq_some h
        cases hh : lits.head? with
        | none =>
          simp only [hh] at hk
          cases hk
        | some l0 =>
          simp only [hh] at hk
          split at hk
          next hpre =>
            injection hk with hk
            obtain ⟨j, hjmem, hkj⟩ := List.mem_map.mp hkmem
            have hjlt := List.mem_range.mp hjmem
            subst hkj
            refine ⟨s1, _, _, _, _, _, l0, rfl, hk.symm, rfl, rfl, ?_, rfl, rfl, ?_, ?_, ?_,
              ?_, hpre⟩
            · simpa using hnums
            · omega
            · omega
            · omega
            · cases lits with
              | nil => cases hh
              | cons a t =>
                have ha : a = l0 := by simpa using hh
                subst ha
                exact List.mem_cons_self a t
          next => cases hk
    · rw [matchHeaderPrefixedAt] at h
      · cases h
      · intro s1x heq
        injection heq with h1 h2
        exact hc h1

theorem matchHeaderPrefixedAt_front (lits : List (List Char)) (s m : List Char)
    (h : matchHeaderPrefixedAt lits s = some m) : m <+: s := by
  obtain ⟨s1, ds, nums, jz, s4, k, kwm, hs, hm, hds, hnums, hnne, hjz, hs4, hk1, hk2, hk5,
    hkwmem, hkwpre⟩ := matchHeaderPrefixedAt_parts lits s m h
  subst hs hm
  have hddec : s1 = ds ++ s1.drop ds.length := by
    conv_lhs => rw [← List.take_append_drop ds.length s1]
    congr 1
    rw [hds]
    exact (List.prefix_iff_eq_take.mp (List.takeWhile_prefix _)).symm
  have hndec : s1.drop ds.length = nums ++ (s1.drop ds.length).drop nums.length := by
    conv_lhs => rw [← List.take_append_drop nums.length (s1.drop ds.length)]
    congr 1
    rw [hnums]
    exact (List.prefix_iff_eq_take.mp (List.takeWhile_prefix _)).symm
  have hjdec : (s1.drop ds.length).drop nums.length =
      jz ++ ((s1.drop ds.length).drop nums.length).drop jz.length := by
    conv_lhs => rw [← List.take_append_drop jz.length ((s1.drop ds.length).drop nums.length)]
    congr 1
    rw [hjz]
    exact (List.prefix_iff_eq_take.mp (List.takeWhile_prefix _)).symm
  have hkdec : kwm <+: s4.drop k := List.isPrefixOf_iff_prefix.mp hkwpre
  have hfinal : ds ++ nums ++ jz ++ s4.take k ++ kwm <+: s1 := by
    conv_rhs => rw [hddec, hndec, hjdec, ← hs4]
    obtain ⟨z, hz⟩ := hkdec
    refine ⟨z, ?_⟩
    conv_rhs => rw [← List.take_append_drop k s4]
    rw [← hz]
    simp [List.append_assoc]
  obtain ⟨z, hz⟩ := hfinal
  exact ⟨z, by rw [← hz]; simp⟩

theorem matchHeaderAt_front (lits : List (List Char)) (s m : List Char)
    (h : matchHeaderAt lits s = some m) : m <+: s := by
  rw [matchHeaderAt] at h
  cases hp : matchHeaderPrefixedAt lits s with
  | some m0 =>
    simp only [hp, Option.some.injEq] at h
    subst h
    exact matchHeaderPrefixedAt_front lits s m0 hp
  | none =>
    simp only [hp] at h
    exact List.isPrefixOf_iff_prefix.mp (by simpa using List.find?_some h)

/-- A successful match of the full header pattern is either a prefixed
first-branch match (a newline followed by a nonempty newline-free body) or
a bare occurrence of one of the remaining keyword literals. -/
theorem matchHeaderAt_shape (lits : List (List Char)) (s m : List Char)
    (hnl : ∀ l ∈ lits, ('\n' : Char) ∉ l)
    (h : matchHeaderAt lits s = some m) :
    (m = '\n' :: m.drop 1 ∧ m.drop 1 ≠ [] ∧ ('\n' : Char) ∉ m.drop 1) ∨
    (m ∈ lits.drop 1 ∧ ('\n' : Char) ∉ m) := by
  rw [matchHeaderAt] at h
  cases hp : matchHeaderPrefixedAt lits s with
  | none =>
    simp only [hp] at h
    have hmem : m ∈ lits.drop 1 := List.mem_of_find?_eq_some h
    exact Or.inr ⟨hmem, hnl m (List.drop_subset 1 lits hmem)⟩
  | some m0 =>
    simp only [hp, Option.some.injEq] at h
    subst h
    left
    obtain ⟨s1, ds, nums, jz, s4, k, kwm, hs, hm, hds, hnums, hnne, hjz, hs4, hk1, hk2, hk5,
      hkwmem, hkwpre⟩ := matchHeaderPrefixedAt_parts lits s m0 hp
    subst hm
    refine ⟨rfl, ?_, ?_⟩
    · simp [hnne]
    · simp only [List.drop_one, List.tail_cons]
      intro hmem
      rcases List.mem_append.mp hmem with hmem1 | hkw0
      rcases List.mem_append.mp hmem1 with hmem2 | hsep0
      rcases List.mem_append.mp hmem2 with hmem3 | hjz0
      rcases List.mem_append.mp hmem3 with hds0 | hnum0
      · rw [hds] at hds0
        have := List.mem_takeWhile_imp hds0
        simp at this
      · rw [hnums] at hnum0
        have := List.mem_takeWhile_imp hnum0
        simp [isNumChar, numeralChars] at this
      · rw [hjz] at hjz0
        have := List.mem_takeWhile_imp hjz0
        simp [isJieZhang] at this
      · have htk : s4.take k = (s4.takeWhile isSepChar).take k := by
          have h1 : s4.takeWhile isSepChar = s4.take (s4.takeWhile isSepChar).length :=
            List.prefix_iff_eq_take.mp (List.takeWhile_prefix _)
          rw [h1, List.take_take, Nat.min_eq_left hk2]
        rw [htk] at hsep0
        have := List.mem_takeWhile_imp (List.take_subset k _ hsep0)
        simp [isSepChar] at this
      · exact hnl kwm hkwmem hkw0

theorem findAllHeadersAux_mem (lits : List (List Char)) (m : List Char) :
    ∀ (k : Nat) (s : List Char), m ∈ findAllHeadersAux lits k s →
      ∃ t, t <:+ s ∧ matchHeaderAt lits t = some m := by
  intro k s
  induction s generalizing k with
  | nil => intro h; simp [findAllHeadersAux] at h
  | cons c rest ih =>
    intro h
    cases k with
    | zero =>
      rw [findAllHeadersAux] at h
      cases hm : matchHeaderAt lits (c :: rest) with
      | some mh =>
        rw [hm] at h
        rcases List.mem_cons.mp h with rfl | h2
        · exact ⟨c :: rest, List.suffix_refl _, hm⟩
        · obtain ⟨t, ht, hmt⟩ := ih _ h2
          exact ⟨t, ht.trans (List.suffix_cons c rest), hmt⟩
      | none =>
        rw [hm] at h
        obtain ⟨t, ht, hmt⟩ := ih 0 h
        exact ⟨t, ht.trans (List.suffix_cons c rest), hmt⟩
    | succ k0 =>
      rw [findAllHeadersAux] at h
      obtain ⟨t, ht, hmt⟩ := ih k0 h
      exact ⟨t, ht.trans (List.suffix_cons c rest), hmt⟩

theorem findAllHeaders_mem (lits : List (List Char)) (text m : List Char)
    (h : m ∈ findAllHeaders lits text) :
    ∃ t, t <:+ text ∧ matchHeaderAt lits t = some m :=
  findAllHeadersAux_mem lits m 0 text h

/-! ## Small glue lemmas -/

theorem stripNl_shape (tail : List Char) (h : ('\n' : Char) ∉ tail) :
    stripNl ('\n' :: tail) = tail := by
  rw [stripNl, List.filter_cons_of_neg (by simp)]
  refine List.filter_eq_self.mpr ?_
  intro a ha
  simp only [ne_eq, decide_eq_true_eq]
  intro hc
  subst hc
  exact h ha

theorem stripNl_no_nl (m : List Char) (h : ('\n' : Char) ∉ m) : stripNl m = m := by
  refine List.filter_eq_self.mpr ?_
  intro a ha
  simp only [ne_eq, decide_eq_true_eq]
  intro hc
  subst hc
  exact h ha

theorem stripLeadingNl_cons_nl (t : List Char) : stripLeadingNl ('\n' :: t) = t := by
  rw [stripLeadingNl]
  simp

theorem stripLeadingNl_no_nl (m : List Char) (h : ('\n' : Char) ∉ m) :
    stripLeadingNl m = m := by
  cases m with
  | nil => rfl
  | cons c t =>
    have hc : ¬ c = '\n' := by
      intro hc
      subst hc
      exact h (List.mem_cons_self _ _)
    rw [stripLeadingNl, if_neg hc]

theorem pySplitFirst_front (sep s : List Char) : pySplitFirst sep s <+: s := by
  rw [pySplitFirst]
  cases firstOccIdx sep s with
  | none => exact List.prefix_refl s
  | some i => exact List.take_prefix i s

theorem pySlice_within (s : List Char) (a b : Int) : pySlice s a b <:+: s := by
  rw [pySlice]
  split
  · rw [listTake_eq]
    exact ((List.take_prefix _ _).isInfix).trans ((List.drop_suffix _ _).isInfix)
  · exact List.nil_infix

theorem numeralCore_some_parts (lits : List (List Char)) (text hdr content : List Char)
    (h : numeralCore lits text = Except.ok (some (hdr, content))) :
    ∃ run m, mostCommon (numbersFound lits text) = some run ∧
      (findAllHeaders lits text).getLast? = some m ∧ hdr = stripNl m ∧
      ∃ cur nxt, charToIntOfRun run = some cur ∧ intToCharMap (cur + 1) = some nxt ∧
        content =
          pySplitFirst ('\n' :: (nxt ++ hdr.filter (fun c => !isCJK c))) (pySplitLast hdr text) := by
  rw [numeralCore] at h
  cases hmc : mostCommon (numbersFound lits text) with
  | none => rw [hmc] at h; simp at h
  | some run =>
    simp only [hmc] at h
    cases hgl : ((findAllHeaders lits text).map stripNl).getLast? with
    | none => simp only [hgl] at h; simp at h
    | some hd0 =>
      simp only [hgl] at h
      cases hci : charToIntOfRun run with
      | none => simp only [hci] at h; simp at h
      | some cur =>
        simp only [hci] at h
        cases hic : intToCharMap (cur + 1) with
        | none => simp only [hic] at h; simp at h
        | some nxt =>
          simp only [hic, Except.ok.injEq, Option.some.injEq, Prod.mk.injEq] at h
          obtain ⟨rfl, rfl⟩ := h
          rw [List.getLast?_map] at hgl
          cases hraw : (findAllHeaders lits text).getLast? with
          | none => rw [hraw] at hgl; cases hgl
          | some m =>
            rw [hraw] at hgl
            have hglm : stripNl m = hd0 := by simpa using hgl
            exact ⟨run, m, rfl, rfl, hglm.symm, cur, nxt, hci, hic, rfl⟩

/-- Claim C9: the numeral codec round-trips on the ten single characters
一 through 十, and maps 11 and 12 to the composites 十一 and 十二. -/
theorem numeral_codec_roundtrip :
    (numeralChars.all
      (fun c => ((charToIntMap c).bind intToCharMap) == some [c])) = true ∧
    intToCharMap 11 = some "十一".data ∧ intToCharMap 12 = some "十二".data := by
  refine ⟨by decide, by decide, by decide⟩

/-- Claim C10: the keyword-catalog function returns a non-empty custom
pattern verbatim and otherwise the fixed built-in catalog of 14 phrase
variants; it is a pure function of its argument (no hidden state). -/
theorem keyword_catalog_verbatim_or_default :
    ∀ p : List (List Char),
      getMdaKeywordsPattern p = (if p.isEmpty then defaultKeywords else p) ∧
      defaultKeywords.length = 14 := by
  intro p
  exact ⟨rfl, by decide⟩

/-- Claim C1: the orchestrator is total — its result is the TOC strategy's
success value, else the keyword strategy's success value, else the empty
string — and in particular when both strategies raise it returns the empty
string. -/
theorem extract_mda_never_raises_and_empty_on_total_failure :
    ∀ (kw : List (List Char)) (text : List Char),
      (tocExtractE kw text = Except.ok (extractMda kw text) ∨
        kwSearchE kw text = Except.ok (extractMda kw text) ∨
        extractMda kw text = []) ∧
      (tocExtractE kw text = Except.error () →
        kwSearchE kw text = Except.error () →
        extractMda kw text = []) := by
  intro kw text
  constructor
  · rw [extractMda]
    cases tocExtractE kw text with
    | ok s => exact Or.inl rfl
    | error e =>
      cases kwSearchE kw text with
      | ok s => exact Or.inr (Or.inl rfl)
      | error e2 => exact Or.inr (Or.inr rfl)
  · intro h1 h2
    rw [extractMda, h1, h2]

/-- Witness for C1: on `docBothFail` both strategies raise and the
orchestrator returns the empty string. -/
theorem extract_mda_never_raises_and_empty_on_total_failure_witness :
    tocExtractE [] docBothFail = Except.error () ∧
    kwSearchE [] docBothFail = Except.error () ∧
    extractMda [] docBothFail = [] := by
  have h1 : tocExtractE [] docBothFail = Except.error () := by decide
  have h2 : kwSearchE [] docBothFail = Except.error () := by decide
  exact ⟨h1, h2,
    (extract_mda_never_raises_and_empty_on_total_failure [] docBothFail).2 h1 h2⟩

/-- Claim C4: when the TOC parses into non-empty marker and title lists and
the MD&A entry is the last one (no marker at index + 1), the TOC extractor
raises, and the orchestrator proceeds to the keyword-search fallback. -/
theorem toc_extractor_mda_last_entry_raises :
    ∀ (kw : List (List Char)) (text : List Char) (i : Nat),
      tocTitles text ≠ [] → tocMarkers text ≠ [] →
      (tocTitles text).findIdx?
        (fun t => titleContainsKw (getMdaKeywordsPattern kw) t) = some i →
      (tocMarkers text).get? (i + 1) = none →
      tocExtractE kw text = Except.error () ∧
      extractMda kw text =
        (match kwSearchE kw text with
          | Except.ok s => s
          | Except.error _ => []) := by
  intro kw text i h1 h2 hidx hnone
  have hmask : tocMasks kw text = Except.error () := by
    rw [tocMasks]
    simp only [hidx]
    cases hm0 : (tocMarkers text).get? i with
    | none => rfl
    | some m0 =>
      simp only
      cases ht0 : (tocTitles text).get? i with
      | none => rfl
      | some t0 =>
        simp only [hnone]
  have hg : (!(tocTitles text).isEmpty && !(tocMarkers text).isEmpty) = true := by
    simp [List.isEmpty_iff, h1, h2]
  have htoc : tocExtractE kw text = Except.error () := by
    rw [tocExtractE]
    simp only [hg, if_true, hmask]
  refine ⟨htoc, ?_⟩
  rw [extractMda, htoc]

/-- Witness for C4: on `docMdaLast` the MD&A title is the last TOC entry
and the TOC extractor raises. -/
theorem toc_extractor_mda_last_entry_raises_witness :
    tocExtractE [] docMdaLast = Except.error () :=
  (toc_extractor_mda_last_entry_raises [] docMdaLast 1 (by decide) (by decide)
    (by decide) (by decide)).1

/-- Claim C6 (counterexample): on the empty document the TOC extractor
cannot find the MD&A section, yet it returns the empty string normally
instead of raising. -/
theorem toc_extractor_empty_return_counterexample :
    tocExtractE [] [] = Except.ok [] ∧
    tocTitles ([] : List Char) = [] ∧
    numbersFound defaultKeywords [] = [] := by
  refine ⟨by decide, by decide, by decide⟩

/-- Claim C6 as amended: the TOC extractor signals failure by raising
except on the sub-fallback path with no usable TOC entries and no numeral
runs near keyword occurrences, where it returns the empty string as a
normal value. -/
theorem toc_extractor_empty_signal :
    ∀ (kw : List (List Char)) (text : List Char),
      (tocTitles text = [] ∨ tocMarkers text = []) →
      numbersFound (getMdaKeywordsPattern kw) text = [] →
      tocExtractE kw text = Except.ok [] := by
  intro kw text hemp hnum
  have hg : (!(tocTitles text).isEmpty && !(tocMarkers text).isEmpty) = false := by
    rcases hemp with h | h <;> simp [List.isEmpty_iff, h]
  rw [tocExtractE]
  simp only [hg, Bool.false_eq_true, if_false]
  rw [numeralCore, hnum]
  rfl

/-- Witness for the amended C6 on the empty document. -/
theorem toc_extractor_empty_signal_witness :
    tocExtractE [] [] = Except.ok [] :=
  toc_extractor_empty_signal [] [] (Or.inl (by decide)) (by decide)

/-- Claim C7 (counterexample): on `docKwHeader` the TOC parse produces no
entries, and the TOC extractor's sub-fallback result differs from the
keyword-search extractor's result on the same text and pattern: the former
omits the header that the latter prepends. -/
theorem toc_subfallback_keyword_equiv_counterexample :
    tocTitles docKwHeader = [] ∧
    tocExtractE [] docKwHeader = Except.ok "\n正文内容".data ∧
    kwSearchE [] docKwHeader = Except.ok "管理层讨论与分析\n正文内容".data ∧
    tocExtractE [] docKwHeader ≠ kwSearchE [] docKwHeader := by
  refine ⟨by decide, by decide, by decide, by decide⟩

/-- Claim C7 as amended: with no usable TOC entries the two strategies run
the identical numeral-proximity core; they raise together, return the
empty string together, and on success differ exactly by the keyword-search
extractor prepending the header literal to the shared content. -/
theorem toc_subfallback_keyword_equiv_amended :
    ∀ (kw : List (List Char)) (text : List Char),
      (tocTitles text = [] ∨ tocMarkers text = []) →
      (tocExtractE kw text = Except.error () ∧ kwSearchE kw text = Except.error ()) ∨
      (numeralCore (getMdaKeywordsPattern kw) text = Except.ok none ∧
        tocExtractE kw text = Except.ok [] ∧ kwSearchE kw text = Except.ok []) ∨
      (∃ hdr content,
        numeralCore (getMdaKeywordsPattern kw) text = Except.ok (some (hdr, content)) ∧
        tocExtractE kw text = Except.ok content ∧
        kwSearchE kw text = Except.ok (hdr ++ content)) := by
  intro kw text hemp
  have hg : (!(tocTitles text).isEmpty && !(tocMarkers text).isEmpty) = false := by
    rcases hemp with h | h <;> simp [List.isEmpty_iff, h]
  rw [tocExtractE, kwSearchE]
  simp only [hg, Bool.false_eq_true, if_false]
  cases hnc : numeralCore (getMdaKeywordsPattern kw) text with
  | error e =>
    cases e
    exact Or.inl ⟨rfl, rfl⟩
  | ok o =>
    cases o with
    | none => exact Or.inr (Or.inl ⟨rfl, rfl, rfl⟩)
    | some p =>
      obtain ⟨hdr, content⟩ := p
      exact Or.inr (Or.inr ⟨hdr, content, rfl, rfl, rfl⟩)

/-- Witness for the amended C7 on `docKwHeader`: both strategies succeed
and the keyword-search result is the header prepended to the sub-fallback
result. -/
theorem toc_subfallback_keyword_equiv_amended_witness :
    tocExtractE [] docKwHeader = Except.ok "\n正文内容".data ∧
    kwSearchE [] docKwHeader =
      Except.ok ("管理层讨论与分析".data ++ "\n正文内容".data) := by
  have h := toc_subfallback_keyword_equiv_amended [] docKwHeader (Or.inl (by decide))
  rcases h with ⟨h1, h2⟩ | ⟨h1, h2, h3⟩ | ⟨hdr, content, h1, h2, h3⟩
  · exact absurd h1 (by decide)
  · exact absurd h1 (by decide)
  · have hval : numeralCore (getMdaKeywordsPattern []) docKwHeader =
        Except.ok (some ("管理层讨论与分析".data, "\n正文内容".data)) := by decide
    rw [hval] at h1
    simp only [Except.ok.injEq, Option.some.injEq, Prod.mk.injEq] at h1
    obtain ⟨hh, hc⟩ := h1
    subst hh
    subst hc
    exact ⟨h2, h3⟩

/-! ## Claim C8: the TOC locator -/

theorem tocMarkerAt_iff (s : List Char) :
    tocMarkerAt s = true ↔
      ∃ ws rest, s = '\n' :: '目' :: (ws ++ '录' :: rest) ∧
        ∀ c ∈ ws, isPyWs c = true := by
  constructor
  · intro h
    cases s with
    | nil => simp [tocMarkerAt] at h
    | cons c1 s1 =>
      cases s1 with
      | nil => simp [tocMarkerAt] at h
      | cons c2 t =>
        rw [tocMarkerAt] at h
        simp only [Bool.and_eq_true, beq_iff_eq] at h
        obtain ⟨⟨rfl, rfl⟩, h3⟩ := h
        cases hdw : t.dropWhile isPyWs with
        | nil => rw [hdw] at h3; cases h3
        | cons c3 r =>
          rw [hdw] at h3
          simp only [beq_iff_eq] at h3
          subst h3
          refine ⟨t.takeWhile isPyWs, r, ?_, fun c hc => List.mem_takeWhile_imp hc⟩
          have hdec : t = t.takeWhile isPyWs ++ t.dropWhile isPyWs :=
            (List.takeWhile_append_dropWhile isPyWs t).symm
          rw [hdw] at hdec
          rw [← hdec]
  · rintro ⟨ws, rest, rfl, hws⟩
    have hdw : (ws ++ '录' :: rest).dropWhile isPyWs = '录' :: rest := by
      rw [List.dropWhile_append_of_pos hws]
      rw [List.dropWhile_cons_of_neg (by decide)]
    rw [tocMarkerAt]
    rw [hdw]
    simp

theorem firstTocMarkerIdx_some (text : List Char) (k : Nat)
    (h : firstTocMarkerIdx text = some k) :
    tocMarkerAt (text.drop k) = true ∧
      ∀ j, j < k → tocMarkerAt (text.drop j) = false := by
  induction text generalizing k with
  | nil => simp [firstTocMarkerIdx] at h
  | cons c t ih =>
    by_cases hm : tocMarkerAt (c :: t)
    · simp [firstTocMarkerIdx, hm] at h
      subst h
      exact ⟨hm, by omega⟩
    · simp [firstTocMarkerIdx, hm] at h
      obtain ⟨k0, hk0, rfl⟩ := h
      obtain ⟨h1, h2⟩ := ih k0 hk0
      refine ⟨by simpa using h1, ?_⟩
      intro j hj
      cases j with
      | zero => simpa using hm
      | succ j0 => simpa using h2 j0 (by omega)

theorem firstTocMarkerIdx_none (text : List Char)
    (h : firstTocMarkerIdx text = none) :
    ∀ j, tocMarkerAt (text.drop j) = false := by
  induction text with
  | nil => intro j; rw [List.drop_nil]; rfl
  | cons c t ih =>
    by_cases hm : tocMarkerAt (c :: t)
    · simp [firstTocMarkerIdx, hm] at h
    · simp [firstTocMarkerIdx, hm] at h
      intro j
      cases j with
      | zero => simpa using hm
      | succ j0 => simpa using ih h j0

theorem tocMarkerSpecAt_iff (text : List Char) (i : Nat) :
    tocMarkerSpecAt text i ↔ tocMarkerAt (text.drop i) = true := by
  rw [tocMarkerSpecAt, tocMarkerAt_iff]

/-- Claim C8: the TOC locator never raises; it returns `(k, k + 2000)` at
the first offset `k` where the TOC-marker pattern (newline, 目, optional
whitespace, 录) matches, and `(0, 2500)` when the marker occurs nowhere,
regardless of the text's length. -/
theorem toc_locator_range :
    ∀ text : List Char,
      (∃ k, tocMarkerSpecAt text k ∧ (∀ j, j < k → ¬ tocMarkerSpecAt text j) ∧
        getTocRange text = (k, k + 2000)) ∨
      ((∀ j, ¬ tocMarkerSpecAt text j) ∧ getTocRange text = (0, 2500)) := by
  intro text
  cases hf : firstTocMarkerIdx text with
  | some k =>
    left
    obtain ⟨h1, h2⟩ := firstTocMarkerIdx_some text k hf
    refine ⟨k, (tocMarkerSpecAt_iff text k).mpr h1, ?_, ?_⟩
    · intro j hj hc
      rw [tocMarkerSpecAt_iff text j] at hc
      rw [h2 j hj] at hc
      cases hc
    · rw [getTocRange, hf]
  | none =>
    right
    refine ⟨?_, ?_⟩
    · intro j hc
      rw [tocMarkerSpecAt_iff text j] at hc
      rw [firstTocMarkerIdx_none text hf j] at hc
      cases hc
    · rw [getTocRange, hf]

/-- Claim C3: whenever the keyword-search extractor succeeds (with a
well-formed literal pattern and a border-free header, as all real headers
are), its result is the last match of the header-detection pattern with
the leading newline stripped, concatenated with the text after that
header's last occurrence, truncated at the first occurrence of the
constructed next-section header literal. -/
theorem keyword_search_result_shape :
    ∀ (kw : List (List Char)) (text r : List Char),
      (∀ l ∈ getMdaKeywordsPattern kw, l ≠ [] ∧ ('\n' : Char) ∉ l) →
      ((findAllHeaders (getMdaKeywordsPattern kw) text).getLast?).all
        (fun m => !hasBorder ( stripLeadingNl m)) = true →
      kwSearchE kw text = Except.ok r → r ≠ [] →
      kwSearchSpec (getMdaKeywordsPattern kw) text = some r := by
  intro kw text r hwf hball hok hne
  rw [kwSearchE] at hok
  cases hnc : numeralCore (getMdaKeywordsPattern kw) text with
  | error e => rw [hnc] at hok; cases hok
  | ok o =>
    rw [hnc] at hok
    cases o with
    | none =>
      simp only [Except.ok.injEq] at hok
      exact absurd hok.symm hne
    | some p =>
      obtain ⟨hdr, content⟩ := p
      simp only [Except.ok.injEq] at hok
      obtain ⟨run, m, hmc, hgl, hhdr, cur, nxt, hci, hic, hcontent⟩ :=
        numeralCore_some_parts (getMdaKeywordsPattern kw) text hdr content hnc
      have hmem : m ∈ findAllHeaders (getMdaKeywordsPattern kw) text :=
        List.mem_of_mem_getLast? hgl
      obtain ⟨t, ht, hmatch⟩ :=
        findAllHeaders_mem (getMdaKeywordsPattern kw) text m hmem
      have hkey : hdr = stripLeadingNl m ∧ hdr ≠ [] := by
        rcases matchHeaderAt_shape (getMdaKeywordsPattern kw) t m
            (fun l hl => (hwf l hl).2) hmatch with ⟨hshape, htne, htnl⟩ | ⟨hmem2, hnlm⟩
        · have he : hdr = m.drop 1 := by
            rw [hhdr]
            conv_lhs => rw [hshape]
            exact stripNl_shape (m.drop 1) htnl
          refine ⟨?_, by rw [he]; exact htne⟩
          rw [he]
          conv_rhs => rw [hshape]
          rw [stripLeadingNl_cons_nl]
        · refine ⟨?_, ?_⟩
          · rw [hhdr, stripNl_no_nl m hnlm, stripLeadingNl_no_nl m hnlm]
          · rw [hhdr, stripNl_no_nl m hnlm]
            exact (hwf m (List.drop_subset 1 _ hmem2)).1
      obtain ⟨hhdr2, hhdrne⟩ := hkey
      have hb : hasBorder ( stripLeadingNl m) = false := by
        rw [hgl] at hball
        simpa using hball
      have hpsl : pySplitLast hdr text = suffixAfterLastOcc hdr text := by
        apply pySplitLast_eq_suffixAfterLast hdr text
        · exact hhdrne
        · rw [hhdr2]; exact hb
      rw [kwSearchSpec]
      simp only [hmc, hgl, hci, hic, Option.some.injEq]
      rw [← hok, hcontent, hpsl, hhdr2]

/-- Witness for C3 on `docKwHeader`: the keyword-search extractor succeeds
and the specification-side description computes the same value (the last
header match there is a bare keyword occurrence, so no newline is
stripped). -/
theorem keyword_search_result_shape_witness :
    kwSearchSpec (getMdaKeywordsPattern []) docKwHeader =
      some ("管理层讨论与分析".data ++ "\n正文内容".data) :=
  keyword_search_result_shape [] docKwHeader
    ("管理层讨论与分析".data ++ "\n正文内容".data)
    (by decide) (by decide) (by decide) (by decide)

/-! ## Claim C5: shape of every orchestrator result -/

theorem tocTryPrimary_ok (mask nmask body r : List Char)
    (h : tocTryPrimary mask nmask body = Except.ok r) :
    ∃ a b, r = pySlice body a b := by
  rw [tocTryPrimary] at h
  repeat' split at h
  all_goals try cases h
  all_goals exact ⟨_, _, rfl⟩

/-- Claim C5 as amended: the orchestrator's result is the empty string, or
a contiguous substring of the input, or — on the TOC extractor's naive
fallback path only — a prefix of the reconstructed MD&A mask concatenated
with a suffix of the input. -/
theorem extract_mda_substring_amended :
    ∀ (kw : List (List Char)) (text : List Char),
      (∀ l ∈ getMdaKeywordsPattern kw, l ≠ [] ∧ ('\n' : Char) ∉ l) →
      extractMda kw text = [] ∨ extractMda kw text <:+: text ∨
      (∃ mask nmask t, tocMasks kw text = Except.ok (mask, nmask) ∧
        t <:+ text ∧ extractMda kw text <+: mask ++ t) := by
  intro kw text hwf
  rw [extractMda]
  cases htoc : tocExtractE kw text with
  | ok s =>
    simp only
    rw [tocExtractE] at htoc
    by_cases hg : (!(tocTitles text).isEmpty && !(tocMarkers text).isEmpty) = true
    · simp only [hg, if_true] at htoc
      cases hm : tocMasks kw text with
      | error e => rw [hm] at htoc; simp at htoc
      | ok pair =>
        obtain ⟨mask, nmask⟩ := pair
        simp only [hm] at htoc
        cases hp : tocTryPrimary mask nmask (text.drop (getTocRange text).2) with
        | ok rp =>
          simp only [hp, Except.ok.injEq] at htoc
          subst htoc
          obtain ⟨a, b, hab⟩ := tocTryPrimary_ok mask nmask _ rp hp
          right; left
          rw [hab]
          exact (pySlice_within _ a b).trans ((List.drop_suffix _ _).isInfix)
        | error e =>
          simp only [hp, Except.ok.injEq] at htoc
          subst htoc
          right; right
          refine ⟨mask, nmask, pySplitLast mask (text.drop (getTocRange text).2), rfl, ?_, ?_⟩
          · exact (pySplitLast_suffix mask _).trans (List.drop_suffix _ _)
          · rw [tocNaiveFallback]
            exact pySplitFirst_front _ _
    · have hg2 : (!(tocTitles text).isEmpty && !(tocMarkers text).isEmpty) = false := by
        cases hx : (!(tocTitles text).isEmpty && !(tocMarkers text).isEmpty) with
        | true => exact absurd hx hg
        | false => rfl
      simp only [hg2, Bool.false_eq_true, if_false] at htoc
      cases hnc : numeralCore (getMdaKeywordsPattern kw) text with
      | error e => rw [hnc] at htoc; simp at htoc
      | ok o =>
        simp only [hnc] at htoc
        cases o with
        | none =>
          simp only [Except.ok.injEq] at htoc
          subst htoc
          exact Or.inl rfl
        | some p =>
          obtain ⟨hdr, content⟩ := p
          simp only [Except.ok.injEq] at htoc
          subst htoc
          obtain ⟨run, m, hmc, hgl, hhdr, cur, nxt, hci, hic, hcontent⟩ :=
            numeralCore_some_parts (getMdaKeywordsPattern kw) text hdr content hnc
          right; left
          rw [hcontent]
          exact ((pySplitFirst_front _ _).isInfix).trans
            ((pySplitLast_suffix hdr text).isInfix)
  | error e =>
    simp only
    cases hkw : kwSearchE kw text with
    | error e2 => exact Or.inl rfl
    | ok s =>
      simp only
      rw [kwSearchE] at hkw
      cases hnc : numeralCore (getMdaKeywordsPattern kw) text with
      | error e2 => rw [hnc] at hkw; simp at hkw
      | ok o =>
        simp only [hnc] at hkw
        cases o with
        | none =>
          simp only [Except.ok.injEq] at hkw
          subst hkw
          exact Or.inl rfl
        | some p =>
          obtain ⟨hdr, content⟩ := p
          simp only [Except.ok.injEq] at hkw
          subst hkw
          obtain ⟨run, m, hmc, hgl, hhdr, cur, nxt, hci, hic, hcontent⟩ :=
            numeralCore_some_parts (getMdaKeywordsPattern kw) text hdr content hnc
          have hmem : m ∈ findAllHeaders (getMdaKeywordsPattern kw) text :=
            List.mem_of_mem_getLast? hgl
          obtain ⟨t0, ht0, hmatch⟩ :=
            findAllHeaders_mem (getMdaKeywordsPattern kw) text m hmem
          have hminf : m <:+: text := (matchHeaderAt_front _ _ _ hmatch).isInfix.trans
            ht0.isInfix
          have hkey : hdr ≠ [] ∧ hdr <:+: text := by
            rcases matchHeaderAt_shape (getMdaKeywordsPattern kw) t0 m
                (fun l hl => (hwf l hl).2) hmatch with ⟨hshape, htne, htnl⟩ | ⟨hmem2, hnlm⟩
            · have hhdr2 : hdr = m.drop 1 := by
                rw [hhdr]
                conv_lhs => rw [hshape]
                exact stripNl_shape (m.drop 1) htnl
              refine ⟨by rw [hhdr2]; exact htne, ?_⟩
              have htail : hdr <:+: m := by
                refine ⟨['\n'], [], ?_⟩
                rw [hhdr2, List.append_nil]
                exact hshape.symm
              exact htail.trans hminf
            · have hhdr2 : hdr = m := by rw [hhdr, stripNl_no_nl m hnlm]
              refine ⟨?_, ?_⟩
              · rw [hhdr2]
                exact (hwf m (List.drop_subset 1 _ hmem2)).1
              · rw [hhdr2]
                exact hminf
          obtain ⟨hdrne, hinf⟩ := hkey
          obtain ⟨u, v, huv⟩ := hinf
          have hpre : hdr <+: text.drop u.length := by
            have : text.drop u.length = hdr ++ v := by
              rw [← huv, List.append_assoc, List.drop_left]
            rw [this]
            exact ⟨v, rfl⟩
          have hfo : firstOccSimple hdr text ≠ none :=
            firstOccSimple_isSome hdr text u.length hpre
          cases hfoc : firstOccSimple hdr text with
          | none => exact absurd hfoc hfo
          | some i =>
            obtain ⟨u2, hu2⟩ := pySplitLast_preceded hdr text hdrne i hfoc
            right; left
            have hsfx : hdr ++ pySplitLast hdr text <:+ text := by
              refine ⟨u2, ?_⟩
              rw [← List.append_assoc]
              exact hu2.symm
            have hpre2 : hdr ++ content <+: hdr ++ pySplitLast hdr text := by
              rw [hcontent]
              exact (List.prefix_append_right_inj hdr).mpr (pySplitFirst_front _ _)
            exact hpre2.isInfix.trans hsfx.isInfix

/-- Witness for the amended C5 at the empty document. -/
theorem extract_mda_substring_amended_witness :
    extractMda [] [] = [] ∨ extractMda [] [] <:+: ([] : List Char) ∨
      (∃ mask nmask t, tocMasks [] [] = Except.ok (mask, nmask) ∧
        t <:+ ([] : List Char) ∧ extractMda [] [] <+: mask ++ t) :=
  extract_mda_substring_amended [] [] (by decide)

/-- Claim C5 (counterexample): on `docMaskOnly` the orchestrator returns a
non-empty string that is not a contiguous substring of the input — the
naive fallback returns the whitespace-collapsed mask, which never occurs
in the document. -/
theorem extract_mda_substring_counterexample :
    extractMda [] docMaskOnly = "第三节管理层讨论与分析".data ∧
    extractMda [] docMaskOnly ≠ [] ∧
    ¬ (extractMda [] docMaskOnly <:+: docMaskOnly) := by
  refine ⟨by decide, by decide, by decide⟩

/-! ## Claim C2: the synthetic well-formed-TOC document

The TOC range is 2000 characters, so concrete evaluation is interleaved
with closed-form lemmas describing each scanner's behaviour on the 甲
padding blocks. -/

theorem collectFragsAux_replicate (n : Nat) :
    ∀ cur, collectFragsAux cur 0 (List.replicate n '甲') =
      [cur.reverse ++ List.replicate n '甲'] := by
  induction n with
  | zero => intro cur; simp [collectFragsAux]
  | succ m ih =>
    intro cur
    rw [List.replicate_succ]
    have hstep : collectFragsAux cur 0 ('甲' :: List.replicate m '甲') =
        collectFragsAux ('甲' :: cur) 0 (List.replicate m '甲') := rfl
    rw [hstep, ih ('甲' :: cur)]
    simp [List.replicate_succ]

theorem findAllMarkersAux_replicate (n : Nat) :
    findAllMarkersAux 0 (List.replicate n '甲') = [] := by
  induction n with
  | zero => simp [findAllMarkersAux]
  | succ m ih =>
    rw [List.replicate_succ]
    have hstep : findAllMarkersAux 0 ('甲' :: List.replicate m '甲') =
        findAllMarkersAux 0 (List.replicate m '甲') := rfl
    rw [hstep, ih]

theorem removeDDE_replicate (n : Nat) :
    removeDigitsDotEllipsis (List.replicate n '甲') = List.replicate n '甲' := by
  induction n with
  | zero => rfl
  | succ m ih =>
    rw [List.replicate_succ]
    have hstep : removeDigitsDotEllipsis ('甲' :: List.replicate m '甲') =
        '甲' :: removeDigitsDotEllipsis (List.replicate m '甲') := rfl
    rw [hstep, ih, ← List.replicate_succ]

theorem collectFrags_scan_synth (Y : List Char) :
    collectFragsAux [] 0
      (" 公司简介\n第二节 会计数据摘要\n第三节 管理层讨论与分析\n第四节 公司治理\n".data
        ++ '甲' :: Y) =
      " 公司简介".data :: " 会计数据摘要".data :: " 管理层讨论与分析".data ::
        collectFragsAux ('甲' :: " 公司治理\n".data.reverse) 0 Y := rfl

theorem findAllMarkers_scan_synth (Y : List Char) :
    findAllMarkersAux 0
      ("\n目录\n第一节 公司简介\n第二节 会计数据摘要\n第三节 管理层讨论与分析\n第四节 公司治理\n".data
        ++ '甲' :: Y) =
      "\n第一节".data :: "\n第二节".data :: "\n第三节".data :: "\n第四节".data ::
        findAllMarkersAux 0 Y := rfl

theorem firstMarkerIdx_scan_synth (Y : List Char) :
    firstMarkerIdx
      ("\n目录\n第一节 公司简介\n第二节 会计数据摘要\n第三节 管理层讨论与分析\n第四节 公司治理\n".data
        ++ Y) = some 3 := rfl

theorem synthDoc_listLen : listLen synthDoc = 2095 := by
  rw [listLen_eq, synthDoc]
  simp only [List.length_append, List.length_replicate]
  norm_num [synthHead, synthBody]

theorem synthTocRange : getTocRange synthDoc = (2, 2002) := by
  rw [getTocRange]
  have h : firstTocMarkerIdx synthDoc = some 2 := rfl
  rw [h]

theorem synthTocText_eq :
    pySlice synthDoc 2 2002 =
      "\n目录\n第一节 公司简介\n第二节 会计数据摘要\n第三节 管理层讨论与分析\n第四节 公司治理\n".data
        ++ List.replicate 1954 '甲' := by
  rw [pySlice, synthDoc_listLen]
  have ha : pyIdx ((2095 : Nat) : Int) 2 = 2 := by norm_num [pyIdx]
  have hb : pyIdx ((2095 : Nat) : Int) 2002 = 2002 := by norm_num [pyIdx]
  rw [ha, hb]
  rw [if_pos (by norm_num)]
  have hc : ((2002 : Int) - 2).toNat = 2000 := rfl
  have hd : ((2 : Int)).toNat = 2 := rfl
  rw [hc, hd, listTake_eq, synthDoc]
  rw [List.drop_append_eq_append_drop]
  have he : synthHead.length = 48 := rfl
  rw [he]
  norm_num
  rw [List.take_append_eq_append_take]
  have hf : (synthHead.drop 2).length = 46 := rfl
  rw [hf]
  have hg : (synthHead.drop 2).take 2000 = synthHead.drop 2 :=
    List.take_of_length_le (by rw [hf]; norm_num)
  rw [hg]
  norm_num
  rfl

theorem synthTitlesRaw :
    tocSectionTitlesRaw
      ("\n目录\n第一节 公司简介\n第二节 会计数据摘要\n第三节 管理层讨论与分析\n第四节 公司治理\n".data
        ++ List.replicate 1954 '甲') =
      [" 公司简介".data, " 会计数据摘要".data, " 管理层讨论与分析".data,
       " 公司治理\n".data ++ List.replicate 1954 '甲'] := by
  rw [tocSectionTitlesRaw, firstMarkerIdx_scan_synth]
  show collectFragsAux [] 0
      (("\n目录\n第一节 公司简介\n第二节 会计数据摘要\n第三节 管理层讨论与分析\n第四节 公司治理\n".data
        ++ List.replicate 1954 '甲').drop (3 + 4)) = _
  have hdrop :
      ("\n目录\n第一节 公司简介\n第二节 会计数据摘要\n第三节 管理层讨论与分析\n第四节 公司治理\n".data
        ++ List.replicate 1954 '甲').drop (3 + 4) =
      " 公司简介\n第二节 会计数据摘要\n第三节 管理层讨论与分析\n第四节 公司治理\n".data
        ++ List.replicate 1954 '甲' := rfl
  rw [hdrop]
  have h1954 : List.replicate 1954 '甲' = '甲' :: List.replicate 1953 '甲' := rfl
  rw [h1954, collectFrags_scan_synth, collectFragsAux_replicate]
  simp only [List.reverse_cons, List.reverse_reverse, List.cons.injEq, true_and]
  exact ⟨rfl, trivial⟩

theorem synthMarkers_eq :
    tocMarkers synthDoc =
      ["\n第一节".data, "\n第二节".data, "\n第三节".data, "\n第四节".data] := by
  rw [tocMarkers, synthTocRange]
  rw [show ((2, 2002) : Nat × Nat).1 = 2 from rfl, show ((2, 2002) : Nat × Nat).2 = 2002 from rfl]
  rw [show ((2 : Nat) : Int) = (2 : Int) from rfl, show ((2002 : Nat) : Int) = (2002 : Int) from rfl]
  rw [synthTocText_eq, findAllSectionMarkers]
  have h1954 : List.replicate 1954 '甲' = '甲' :: List.replicate 1953 '甲' := rfl
  rw [h1954, findAllMarkers_scan_synth, findAllMarkersAux_replicate]

theorem cleanTitle_synth_t4 (n : Nat) :
    cleanTitle (" 公司治理\n".data ++ List.replicate (n + 1) '甲') =
      "公司治理\n".data ++ List.replicate (n + 1) '甲' := by
  rw [cleanTitle, List.filter_append]
  have h1 : (" 公司治理\n".data).filter (fun c => !(isDigitChar c || c = '.')) =
      " 公司治理\n".data := rfl
  have h2 : (List.replicate (n + 1) '甲').filter (fun c => !(isDigitChar c || c = '.')) =
      List.replicate (n + 1) '甲' := List.filter_replicate_of_pos (by decide)
  rw [h1, h2, pyStrip]
  have h3 : ∀ X : List Char, (" 公司治理\n".data ++ X).dropWhile isPyWs =
      "公司治理\n".data ++ X := fun X => rfl
  rw [h3, List.reverse_append, List.reverse_replicate, List.replicate_succ, List.cons_append]
  rw [List.dropWhile_cons_of_neg (by decide)]
  rw [List.reverse_cons, List.reverse_append, List.reverse_reverse, List.reverse_replicate]
  rw [List.append_assoc]
  congr 1
  rw [← List.replicate_succ']
  exact List.replicate_succ '甲' n

theorem synthTitles_eq :
    tocTitles synthDoc =
      ["公司简介".data, "会计数据摘要".data, "管理层讨论与分析".data,
       "公司治理\n".data ++ List.replicate 1954 '甲'] := by
  rw [tocTitles, synthTocRange]
  rw [show ((2, 2002) : Nat × Nat).1 = 2 from rfl, show ((2, 2002) : Nat × Nat).2 = 2002 from rfl]
  rw [show ((2 : Nat) : Int) = (2 : Int) from rfl, show ((2002 : Nat) : Int) = (2002 : Int) from rfl]
  rw [synthTocText_eq, synthTitlesRaw]
  simp only [List.map_cons, List.map_nil, List.cons.injEq]
  refine ⟨rfl, rfl, rfl, ?_, trivial⟩
  rw [show (1954 : Nat) = 1953 + 1 from rfl]
  exact cleanTitle_synth_t4 1953

theorem synthNmask_eq (n : Nat) :
    pyRstrip (removeDigitsDotEllipsis
      (stripNl "\n第四节".data ++ ("公司治理\n".data ++ List.replicate (n + 1) '甲'))) =
      "第四节公司治理\n".data ++ List.replicate (n + 1) '甲' := by
  have h0 : stripNl "\n第四节".data = "第四节".data := rfl
  rw [h0, ← List.append_assoc]
  have h1 : "第四节".data ++ "公司治理\n".data = "第四节公司治理\n".data := rfl
  rw [h1]
  have h2 : ∀ X, removeDigitsDotEllipsis ("第四节公司治理\n".data ++ X) =
      "第四节公司治理\n".data ++ removeDigitsDotEllipsis X := fun X => rfl
  rw [h2, removeDDE_replicate, pyRstrip]
  rw [List.reverse_append, List.reverse_replicate, List.replicate_succ, List.cons_append]
  rw [List.dropWhile_cons_of_neg (by decide)]
  rw [List.reverse_cons, List.reverse_append, List.reverse_reverse, List.reverse_replicate]
  rw [List.append_assoc]
  congr 1
  rw [← List.replicate_succ']
  exact List.replicate_succ '甲' n

theorem synthMasks_eq :
    tocMasks [] synthDoc =
      Except.ok ("第三节管理层讨论与分析".data,
        "第四节公司治理\n".data ++ List.replicate 1954 '甲') := by
  rw [tocMasks]
  rw [synthTitles_eq, synthMarkers_eq]
  have hidx :
      (["公司简介".data, "会计数据摘要".data, "管理层讨论与分析".data,
        "公司治理\n".data ++ List.replicate 1954 '甲']).findIdx?
        (fun t => titleContainsKw (getMdaKeywordsPattern []) t) = some 2 := rfl
  rw [hidx]
  show Except.ok (_, pyRstrip (removeDigitsDotEllipsis
      (stripNl "\n第四节".data ++ ("公司治理\n".data ++ List.replicate 1954 '甲')))) = _
  rw [show (1954 : Nat) = 1953 + 1 from rfl, synthNmask_eq 1953]
  rfl

theorem synthBody_drop :
    synthDoc.drop 2002 = List.replicate 60 '甲' ++ synthBody := by
  rw [synthDoc, List.drop_append_eq_append_drop]
  have h1 : synthHead.drop 2002 = [] :=
    List.drop_eq_nil_of_le (by rw [show synthHead.length = 48 from rfl]; norm_num)
  rw [h1, show synthHead.length = 48 from rfl, List.nil_append]
  rw [show (2002 - 48 : Nat) = 1954 from rfl, List.drop_append_eq_append_drop]
  rw [List.length_replicate]
  have h2 : (List.replicate 1954 '甲').drop 1954 = [] :=
    List.drop_eq_nil_of_le (le_of_eq (by rw [List.length_replicate]))
  rw [h2, List.nil_append, Nat.sub_self, List.drop_zero]

set_option maxRecDepth 8000 in
theorem synthDoc_tocExtract_eq :
    tocExtractE [] synthDoc = Except.ok synthActual := by
  rw [tocExtractE]
  have hg : (!(tocTitles synthDoc).isEmpty && !(tocMarkers synthDoc).isEmpty) = true := by
    rw [synthTitles_eq, synthMarkers_eq]
    rfl
  rw [if_pos hg]
  rw [synthMasks_eq]
  show (match tocTryPrimary "第三节管理层讨论与分析".data
      ("第四节公司治理\n".data ++ List.replicate 1954 '甲')
      (synthDoc.drop (getTocRange synthDoc).2) with
    | Except.ok r => Except.ok r
    | Except.error _ =>
      Except.ok (tocNaiveFallback "第三节管理层讨论与分析".data
        ("第四节公司治理\n".data ++ List.replicate 1954 '甲')
        (synthDoc.drop (getTocRange synthDoc).2))) = Except.ok synthActual
  have hp : ∀ (nm bd : List Char),
      tocTryPrimary "第三节管理层讨论与分析".data nm bd = Except.error () := fun nm bd => rfl
  rw [hp]
  have hbd : synthDoc.drop (getTocRange synthDoc).2 = List.replicate 60 '甲' ++ synthBody := by
    rw [synthTocRange]
    exact synthBody_drop
  rw [hbd]
  rw [tocNaiveFallback]
  have hpsl : pySplitLast "第三节管理层讨论与分析".data
      (List.replicate 60 '甲' ++ synthBody) = List.replicate 60 '甲' ++ synthBody := rfl
  rw [hpsl]
  have hpsf : pySplitFirst ("第四节公司治理\n".data ++ List.replicate 1954 '甲')
      ("第三节管理层讨论与分析".data ++ (List.replicate 60 '甲' ++ synthBody)) =
      "第三节管理层讨论与分析".data ++ (List.replicate 60 '甲' ++ synthBody) := by
    rw [pySplitFirst]
    have hno : firstOccIdx ("第四节公司治理\n".data ++ List.replicate 1954 '甲')
        ("第三节管理层讨论与分析".data ++ (List.replicate 60 '甲' ++ synthBody)) = none := rfl
    rw [hno]
  rw [hpsf]
  rfl

set_option maxRecDepth 8000 in
/-- Claim C2 (counterexample): on the synthetic well-formed-TOC document,
the TOC extractor does not return the body text between the 第三节 and
第四节 headers: its result is the collapsed mask followed by the whole
body, which contains the 第四节 header in full rather than excluding it. -/
theorem toc_extractor_synthetic_doc_counterexample :
    tocExtractE [] synthDoc = Except.ok synthActual ∧
    synthActual ≠ synthBetween ∧
    (firstOccIdx "\n第四节 公司治理".data synthActual).isSome = true := by
  refine ⟨synthDoc_tocExtract_eq, by decide, by decide⟩

/-- Claim C2 as amended: on the synthetic document the cleaned TOC titles
lose the whitespace separating marker from title, so the two-fragment
sub-strategy raises, and the naive fallback returns the collapsed MD&A
mask (第三节管理层讨论与分析) concatenated with the entire body after the
TOC range, untruncated because the collapsed next-section mask never
occurs there. -/
theorem toc_extractor_synthetic_doc_amended :
    tocMasks [] synthDoc =
      Except.ok ("第三节管理层讨论与分析".data,
        "第四节公司治理\n".data ++ List.replicate 1954 '甲') ∧
    tocExtractE [] synthDoc =
      Except.ok ("第三节管理层讨论与分析".data ++
        (List.replicate 60 '甲' ++ synthBody)) :=
  ⟨synthMasks_eq, synthDoc_tocExtract_eq⟩
